import Mathlib

/-!
Verification of the MusicToy audio engine against its specification.

The TypeScript sources are shallowly embedded: machine floating-point
numbers are modelled as rationals (`ℚ`), fallible code (assertion
failures) returns `Option`, and the imperative loops are rendered as
structural or well-founded recursion.  Curve exponents of the ADSR
envelope are modelled as naturals (the code always uses the integer 2),
so that `Math.pow` becomes monoid power on `ℚ`.
-/

namespace MusicToy

/-! ## ADSR envelope (src/vananlog.ts, class ADSREnv) -/

/-- Embedding of `ADSREnv`: attack, decay, sustain, release and the three
curve exponents (the constructor always sets the exponents to 2). -/
structure ADSREnv where
  a : ℚ
  d : ℚ
  s : ℚ
  r : ℚ
  aExp : ℕ
  dExp : ℕ
  rExp : ℕ
deriving DecidableEq

/-- Model of `ADSREnv.interp(x, yL, yR, exp)`: if the curve is increasing,
`yL + x^exp * (yR - yL)`, else `yR + (1-x)^exp * (yL - yR)`. -/
def ADSREnv.interp (x yL yR : ℚ) (e : ℕ) : ℚ :=
  if yL < yR then yL + x ^ e * (yR - yL)
  else yR + (1 - x) ^ e * (yL - yR)

/-- Model of `ADSREnv.getValue(curTime, onTime, offTime, onAmp, offAmp)`:
the held branch (`offTime === 0`) tests `noteTime < a` and
`noteTime < a + d`; the released branch tests `relTime < r`. -/
def ADSREnv.getValue (env : ADSREnv) (curTime onTime offTime onAmp offAmp : ℚ) : ℚ :=
  if offTime = 0 then
    let noteTime := curTime - onTime
    if noteTime < env.a then
      ADSREnv.interp (noteTime / env.a) onAmp 1 env.aExp
    else if noteTime < env.a + env.d then
      ADSREnv.interp ((noteTime - env.a) / env.d) 1 env.s env.dExp
    else
      env.s
  else
    let relTime := curTime - offTime
    if relTime < env.r then
      ADSREnv.interp (relTime / env.r) offAmp 0 env.rExp
    else
      0

/-- The spec's interpolation rule, written from its words: with progress
`x` and exponent `e`, `start + x^e*(target-start)` when `target > start`,
else `target + (1-x)^e*(start-target)`. -/
def specInterp (x start target : ℚ) (e : ℕ) : ℚ :=
  if start < target then start + x ^ e * (target - start)
  else target + (1 - x) ^ e * (start - target)

/-- The spec's piecewise reference envelope, written from its words: when
`offTime == 0`, interpolate on `curTime - onTime ∈ [0, a)`, then on
`[a, a+d)`, otherwise sustain; when `offTime != 0`, interpolate on
`curTime - offTime ∈ [0, r)`, otherwise 0. -/
def specADSRValue (env : ADSREnv) (curTime onTime offTime onAmp offAmp : ℚ) : ℚ :=
  if offTime = 0 then
    let noteTime := curTime - onTime
    if 0 ≤ noteTime ∧ noteTime < env.a then
      specInterp (noteTime / env.a) onAmp 1 env.aExp
    else if env.a ≤ noteTime ∧ noteTime < env.a + env.d then
      specInterp ((noteTime - env.a) / env.d) 1 env.s env.dExp
    else
      env.s
  else
    let relTime := curTime - offTime
    if 0 ≤ relTime ∧ relTime < env.r then
      specInterp (relTime / env.r) offAmp 0 env.rExp
    else
      0

theorem interp_eq_specInterp (x yL yR : ℚ) (e : ℕ) :
    ADSREnv.interp x yL yR e = specInterp x yL yR e := rfl

/-- C1 counterexample: for the envelope with attack 1, decay 1, sustain 1/2,
release 1 and exponents 2, evaluated at `curTime = 0` with `onTime = 1`
(so `noteTime = -1 < 0`), the code interpolates the attack curve with
negative progress and yields 1, while the spec's piecewise reference
yields the sustain level 1/2. -/
theorem getValue_ne_spec_before_onTime :
    ADSREnv.getValue ⟨1, 1, 1/2, 1, 2, 2, 2⟩ 0 1 0 0 0
      ≠ specADSRValue ⟨1, 1, 1/2, 1, 2, 2, 2⟩ 0 1 0 0 0 := by
  norm_num [ADSREnv.getValue, specADSRValue, ADSREnv.interp, specInterp]

/-- C1 (amended): `getValue` equals the spec's piecewise reference
whenever the evaluation time is not before the note-on time (held case)
resp. the note-off time (released case). -/
theorem getValue_eq_spec_of_le (env : ADSREnv)
    (curTime onTime offTime onAmp offAmp : ℚ)
    (hOn : offTime = 0 → onTime ≤ curTime)
    (hOff : offTime ≠ 0 → offTime ≤ curTime) :
    env.getValue curTime onTime offTime onAmp offAmp
      = specADSRValue env curTime onTime offTime onAmp offAmp := by
  simp only [ADSREnv.getValue, specADSRValue, interp_eq_specInterp]
  by_cases h0 : offTime = 0
  · rw [if_pos h0, if_pos h0]
    have h00 : (0 : ℚ) ≤ curTime - onTime := sub_nonneg.mpr (hOn h0)
    by_cases h1 : curTime - onTime < env.a
    · have hs1 : 0 ≤ curTime - onTime ∧ curTime - onTime < env.a := ⟨h00, h1⟩
      rw [if_pos h1, if_pos hs1]
    · have hs1 : ¬(0 ≤ curTime - onTime ∧ curTime - onTime < env.a) :=
        fun hc => h1 hc.2
      by_cases h2 : curTime - onTime < env.a + env.d
      · have hs2 : env.a ≤ curTime - onTime ∧ curTime - onTime < env.a + env.d :=
          ⟨not_lt.mp h1, h2⟩
        rw [if_neg h1, if_pos h2, if_neg hs1, if_pos hs2]
      · have hs2 : ¬(env.a ≤ curTime - onTime ∧ curTime - onTime < env.a + env.d) :=
          fun hc => h2 hc.2
        rw [if_neg h1, if_neg h2, if_neg hs1, if_neg hs2]
  · rw [if_neg h0, if_neg h0]
    have h00 : (0 : ℚ) ≤ curTime - offTime := sub_nonneg.mpr (hOff h0)
    by_cases h1 : curTime - offTime < env.r
    · have hs1 : 0 ≤ curTime - offTime ∧ curTime - offTime < env.r := ⟨h00, h1⟩
      rw [if_pos h1, if_pos hs1]
    · have hs1 : ¬(0 ≤ curTime - offTime ∧ curTime - offTime < env.r) :=
        fun hc => h1 hc.2
      rw [if_neg h1, if_neg hs1]

/-- Witness for C1's amended theorem at a concrete input: the envelope
with attack 1 evaluated half-way through the attack. -/
theorem getValue_eq_spec_of_le_witness :
    ADSREnv.getValue ⟨1, 1, 1/2, 1, 2, 2, 2⟩ 2 0 0 0 0
      = specADSRValue ⟨1, 1, 1/2, 1, 2, 2, 2⟩ 2 0 0 0 0 :=
  getValue_eq_spec_of_le ⟨1, 1, 1/2, 1, 2, 2, 2⟩ 2 0 0 0 0
    (fun _ => by norm_num) (fun h => absurd rfl h)

/-! ## Tracks and synthesis events (piece module, class Track) -/

/-- A track event (`NoteOnEvt` / `NoteOffEvt`): occurrence time, note
number, on/off tag and velocity. -/
structure TrackEvt where
  time : ℚ
  note : ℕ
  isOn : Bool
  vel : ℚ
deriving DecidableEq, Inhabited

/-- A track: the event list plus whether a target node is attached
(`this.target !== undefined`). -/
structure Track where
  events : List TrackEvt
  targetDefined : Bool
deriving DecidableEq

/-- The track invariant: events sorted ascending by time. -/
def sortedByTime (l : List TrackEvt) : Prop :=
  l.Pairwise (fun a b => a.time ≤ b.time)

instance (l : List TrackEvt) : Decidable (sortedByTime l) := by
  unfold sortedByTime; infer_instance

/-- The indexing `this.events[i].time` of the dispatch code (out-of-range
reads give the default event; the proofs never rely on that case). -/
def tAt (events : List TrackEvt) (i : ℕ) : ℚ :=
  (events.getD i default).time

/-- The binary-search loop of `Track.dispatch`: finds the index where we
are at or just past `prevTime`.  The JS loop keeps `minIdx`/`maxIdx`
inclusive; here `maxP = maxIdx + 1`, so `midIdx = ⌊(minIdx + maxIdx)/2⌋ =
(minIdx + maxP - 1) / 2`, the `midTime < prevTime` branch sets
`minIdx := midIdx + 1`, the other branch sets `maxIdx := midIdx - 1`
(i.e. `maxP := midIdx`), and `leftTime = -∞` for `midIdx = 0`.
`some` is the `break` exit, `none` the `minIdx > maxIdx` exit. -/
def findStart (events : List TrackEvt) (prevTime : ℚ) (minIdx maxP : ℕ) : Option ℕ :=
  if h : minIdx < maxP then
    if ((minIdx + maxP - 1) / 2 = 0 ∨ tAt events ((minIdx + maxP - 1) / 2 - 1) < prevTime) ∧
        prevTime ≤ tAt events ((minIdx + maxP - 1) / 2) then
      some ((minIdx + maxP - 1) / 2)
    else if tAt events ((minIdx + maxP - 1) / 2) < prevTime then
      findStart events prevTime ((minIdx + maxP - 1) / 2 + 1) maxP
    else
      findStart events prevTime minIdx ((minIdx + maxP - 1) / 2)
  else
    none
termination_by maxP - minIdx
decreasing_by
  · omega
  · omega

/-- Model of `Track.dispatch(prevTime, curTime, realTime)`: the list of events
delivered (in order) to the target node.  Returns early when the target
is undefined or the event list is empty; otherwise walks forward from the
binary-search index until an event's time reaches `curTime`. -/
def Track.dispatch (tr : Track) (prevTime curTime : ℚ) : List TrackEvt :=
  if tr.targetDefined = false then []
  else if tr.events.length = 0 then []
  else
    match findStart tr.events prevTime 0 tr.events.length with
    | none => []
    | some midIdx =>
        (tr.events.drop midIdx).takeWhile (fun e => decide (e.time < curTime))

/-- Model of `Track.addEvent(evt)`: push the event; skip re-sorting when the list
was empty or the event is at/after the previously last event; otherwise
sort by time (JS `Array.prototype.sort` is stable, so a stable merge sort
by `time ≤ time` models it). -/
def Track.addEvent (tr : Track) (evt : TrackEvt) : Track :=
  let events := tr.events ++ [evt]
  match tr.events.getLast? with
  | none => { tr with events := events }
  | some lastEvt =>
      if lastEvt.time ≤ evt.time then { tr with events := events }
      else { tr with events := events.mergeSort (fun a b => decide (a.time ≤ b.time)) }

theorem tAt_mono {events : List TrackEvt} (hs : sortedByTime events)
    {i j : ℕ} (hij : i ≤ j) (hj : j < events.length) :
    tAt events i ≤ tAt events j := by
  rcases Nat.eq_or_lt_of_le hij with rfl | hlt
  · exact le_refl _
  · have hi : i < events.length := lt_trans hlt hj
    have := (List.pairwise_iff_get.mp hs) ⟨i, hi⟩ ⟨j, hj⟩ hlt
    unfold tAt
    rw [List.getD_eq_getElem _ _ hi, List.getD_eq_getElem _ _ hj]
    simpa [List.get_eq_getElem] using this

/-- If every event's time is below `prevTime`, the binary search exits
without a break. -/
theorem findStart_eq_none (events : List TrackEvt) (prevTime : ℚ)
    (hall : ∀ j < events.length, tAt events j < prevTime) :
    ∀ minIdx maxP, maxP ≤ events.length →
      findStart events prevTime minIdx maxP = none := by
  have key : ∀ n minIdx maxP, maxP - minIdx = n → maxP ≤ events.length →
      findStart events prevTime minIdx maxP = none := by
    intro n
    induction n using Nat.strong_induction_on with
    | _ n ih =>
      intro minIdx maxP hn hle
      rw [findStart]
      by_cases h : minIdx < maxP
      · rw [dif_pos h]
        have hmid : (minIdx + maxP - 1) / 2 < maxP := by omega
        have hmt := hall _ (lt_of_lt_of_le hmid hle)
        rw [if_neg (fun hc => absurd hmt (not_lt.mpr hc.2)), if_pos hmt]
        exact ih (maxP - ((minIdx + maxP - 1) / 2 + 1)) (by omega) _ _ rfl hle
      · rw [dif_neg h]
  intro minIdx maxP hle
  exact key _ minIdx maxP rfl hle

/-- If `f` is the first index at/after `prevTime`, the binary search
breaks exactly at `f` whenever `f` lies within the search window. -/
theorem findStart_eq_some (events : List TrackEvt) (prevTime : ℚ)
    (hs : sortedByTime events) (f : ℕ) (_hf : f < events.length)
    (hft : prevTime ≤ tAt events f)
    (hfmin : ∀ j < f, tAt events j < prevTime) :
    ∀ minIdx maxP, maxP ≤ events.length → minIdx ≤ f → f < maxP →
      findStart events prevTime minIdx maxP = some f := by
  have key : ∀ n minIdx maxP, maxP - minIdx = n → maxP ≤ events.length →
      minIdx ≤ f → f < maxP → findStart events prevTime minIdx maxP = some f := by
    intro n
    induction n using Nat.strong_induction_on with
    | _ n ih =>
      intro minIdx maxP hn hle hminf hfmax
      have h : minIdx < maxP := lt_of_le_of_lt hminf hfmax
      rw [findStart, dif_pos h]
      set mid := (minIdx + maxP - 1) / 2 with hmiddef
      have hmid1 : minIdx ≤ mid := by omega
      have hmid2 : mid < maxP := by omega
      have hmidlen : mid < events.length := lt_of_lt_of_le hmid2 hle
      by_cases hbrk : (mid = 0 ∨ tAt events (mid - 1) < prevTime) ∧
          prevTime ≤ tAt events mid
      · rw [if_pos hbrk]
        -- the break index is the first index at/after prevTime
        have hfle : f ≤ mid := by
          by_contra hcon
          push_neg at hcon
          exact absurd (hfmin mid hcon) (not_lt.mpr hbrk.2)
        have hmle : mid ≤ f := by
          rcases hbrk.1 with h0 | hleft
          · omega
          · by_contra hcon
            push_neg at hcon
            have : tAt events f ≤ tAt events (mid - 1) :=
              tAt_mono hs (by omega) (by omega)
            exact absurd (lt_of_le_of_lt this hleft) (not_lt.mpr hft)
        exact congrArg some (le_antisymm hmle hfle)
      · rw [if_neg hbrk]
        by_cases hlt : tAt events mid < prevTime
        · rw [if_pos hlt]
          have hmidf : mid < f := by
            by_contra hcon
            push_neg at hcon
            exact absurd (lt_of_le_of_lt (tAt_mono hs hcon hmidlen) hlt)
              (not_lt.mpr hft)
          exact ih (maxP - (mid + 1)) (by omega) _ _ rfl hle (by omega) hfmax
        · rw [if_neg hlt]
          -- the break failed with `prevTime ≤ midTime`, so `mid ≠ 0` and
          -- the left neighbour is also at/after prevTime
          have hmid0 : ¬(mid = 0 ∨ tAt events (mid - 1) < prevTime) :=
            fun hc => hbrk ⟨hc, not_lt.mp hlt⟩
          push_neg at hmid0
          have hfmid : f < mid := by
            by_contra hcon
            push_neg at hcon
            have hj : mid - 1 < f := by omega
            exact absurd (hfmin _ hj) (not_lt.mpr hmid0.2)
          exact ih (mid - minIdx) (by omega) _ _ rfl (le_of_lt hmidlen) hminf hfmid
  intro minIdx maxP hle hminf hfmax
  exact key _ minIdx maxP rfl hle hminf hfmax

theorem tAt_eq_getElem {events : List TrackEvt} {i : ℕ} (h : i < events.length) :
    tAt events i = events[i].time := by
  unfold tAt
  rw [List.getD_eq_getElem _ _ h]

/-- On a time-sorted list whose members are all at/after `prev`, walking
forward until `curTime` is reached collects exactly the events in the
window `[prev, cur)`. -/
theorem takeWhile_eq_filter_window (prev cur : ℚ) :
    ∀ l : List TrackEvt, l.Pairwise (fun a b => a.time ≤ b.time) →
      (∀ x ∈ l, prev ≤ x.time) →
      l.takeWhile (fun e => decide (e.time < cur))
        = l.filter (fun e => decide (prev ≤ e.time ∧ e.time < cur)) := by
  intro l
  induction l with
  | nil => intro _ _; rfl
  | cons x xs ih =>
    intro hp hall
    rw [List.takeWhile_cons, List.filter_cons]
    by_cases hx : x.time < cur
    · have hpx : prev ≤ x.time := hall x (List.mem_cons_self x xs)
      rw [if_pos (by simpa using hx), if_pos (by simp [hpx, hx])]
      rw [ih (List.pairwise_cons.mp hp).2 (fun y hy => hall y (List.mem_cons_of_mem x hy))]
    · rw [if_neg (by simpa using hx), if_neg (by simp [hx])]
      symm
      rw [List.filter_eq_nil_iff]
      intro a ha
      have hxa : x.time ≤ a.time := (List.pairwise_cons.mp hp).1 a ha
      simp only [decide_eq_true_eq, not_and]
      intro _
      exact not_lt.mpr (le_trans (not_lt.mp hx) hxa)

/-- Helper: `Track.dispatch` delivers exactly the events with time in
`[prevTime, curTime)`, in order, whenever the event list is sorted and a
target node is attached. -/
theorem dispatch_eq_filter (tr : Track) (prevTime curTime : ℚ)
    (hs : sortedByTime tr.events) (ht : tr.targetDefined = true) :
    tr.dispatch prevTime curTime
      = tr.events.filter (fun e => decide (prevTime ≤ e.time ∧ e.time < curTime)) := by
  unfold Track.dispatch
  rw [if_neg (by simp [ht])]
  by_cases hlen : tr.events.length = 0
  · rw [if_pos hlen]
    rw [List.length_eq_zero.mp hlen]
    rfl
  · rw [if_neg hlen]
    by_cases hex : ∃ j, j < tr.events.length ∧ prevTime ≤ tAt tr.events j
    · -- there is a first event at/after prevTime
      have hfspec := Nat.find_spec hex
      set f := Nat.find hex with hfdef
      have hfmin : ∀ j < f, tAt tr.events j < prevTime := by
        intro j hj
        have hnj := Nat.find_min hex hj
        by_contra hcon
        exact hnj ⟨lt_trans hj hfspec.1, not_lt.mp hcon⟩
      rw [findStart_eq_some tr.events prevTime hs f hfspec.1 hfspec.2 hfmin
        0 tr.events.length le_rfl (Nat.zero_le f) hfspec.1]
      conv_rhs => rw [← List.take_append_drop f tr.events]
      rw [List.filter_append]
      have htake : (tr.events.take f).filter
          (fun e => decide (prevTime ≤ e.time ∧ e.time < curTime)) = [] := by
        rw [List.filter_eq_nil_iff]
        intro a ha
        obtain ⟨j, hj, rfl⟩ := List.mem_iff_getElem.mp ha
        have hjf : j < f := lt_of_lt_of_le hj (by rw [List.length_take]; exact min_le_left _ _)
        have hjlen : j < tr.events.length := lt_trans hjf hfspec.1
        have := hfmin j hjf
        rw [tAt_eq_getElem hjlen] at this
        simp only [List.getElem_take, decide_eq_true_eq, not_and]
        intro hc
        exact absurd hc (not_le.mpr this)
      rw [htake, List.nil_append]
      apply takeWhile_eq_filter_window
      · exact hs.sublist (List.drop_sublist f tr.events)
      · intro x hx
        obtain ⟨j, hj, rfl⟩ := List.mem_iff_getElem.mp hx
        rw [List.getElem_drop]
        have hlen' : f + j < tr.events.length := by
          rw [List.length_drop] at hj
          omega
        rw [← tAt_eq_getElem hlen']
        exact le_trans hfspec.2 (tAt_mono hs (Nat.le_add_right f j) hlen')
    · -- every event is strictly before prevTime
      have hall : ∀ j < tr.events.length, tAt tr.events j < prevTime :=
        fun j hj => not_le.mp (fun hp => hex ⟨j, hj, hp⟩)
      rw [findStart_eq_none tr.events prevTime hall 0 tr.events.length le_rfl]
      symm
      rw [List.filter_eq_nil_iff]
      intro a ha
      obtain ⟨j, hj, rfl⟩ := List.mem_iff_getElem.mp ha
      have := hall j hj
      rw [tAt_eq_getElem hj] at this
      simp only [decide_eq_true_eq, not_and]
      intro hc
      exact absurd hc (not_le.mpr this)

/-- C2: for every track whose event list is sorted ascending by time and
whose target node is defined, `Track.dispatch(prevTime, curTime, realTime)`
delivers to the target node exactly the events with time in
`[prevTime, curTime)`, in ascending time order (the delivered list is the
order-preserving filter of the sorted event list). -/
theorem track_dispatch_delivers_window (tr : Track) (prevTime curTime : ℚ)
    (hs : sortedByTime tr.events) (ht : tr.targetDefined = true) :
    tr.dispatch prevTime curTime
      = tr.events.filter (fun e => decide (prevTime ≤ e.time ∧ e.time < curTime)) :=
  dispatch_eq_filter tr prevTime curTime hs ht

/-- The track of C2's concrete instance: events at times 0, 0.5 and 1. -/
def c2Track : Track :=
  { events := [⟨0, 60, true, 1⟩, ⟨1/2, 61, true, 1⟩, ⟨1, 62, true, 1⟩],
    targetDefined := true }

/-- C2 witness: with events at times [0.0, 0.5, 1.0] and the window
`prevTime = 0.4`, `curTime = 0.9`, exactly the event at 0.5 fires. -/
theorem track_dispatch_delivers_window_witness :
    c2Track.dispatch (2/5) (9/10) = [⟨1/2, 61, true, 1⟩] := by
  rw [track_dispatch_delivers_window c2Track (2/5) (9/10)
    (by norm_num [c2Track, sortedByTime, List.pairwise_cons]) rfl]
  norm_num [c2Track, List.filter_cons]

/-- In a time-sorted list, every event is at/before the last one. -/
theorem time_le_getLast_of_sorted :
    ∀ l : List TrackEvt, sortedByTime l → ∀ lastEvt, l.getLast? = some lastEvt →
      ∀ a ∈ l, a.time ≤ lastEvt.time := by
  intro l
  induction l with
  | nil => intro _ lastEvt h; cases h
  | cons x xs ih =>
    intro hs lastEvt hlast a ha
    cases xs with
    | nil =>
      rw [List.getLast?_singleton] at hlast
      cases hlast
      rcases List.mem_singleton.mp ha with rfl
      exact le_refl _
    | cons y ys =>
      rw [List.getLast?_cons_cons] at hlast
      have hs' := List.pairwise_cons.mp hs
      rcases List.mem_cons.mp ha with rfl | hmem
      · exact le_trans
          (hs'.1 _ (List.mem_of_mem_getLast? hlast))
          (le_refl _)
      · exact ih hs'.2 lastEvt hlast a hmem

theorem addEvent_events_sorted (tr : Track) (evt : TrackEvt)
    (hs : sortedByTime tr.events) :
    sortedByTime (tr.addEvent evt).events := by
  unfold Track.addEvent
  cases hlast : tr.events.getLast? with
  | none =>
    simp only [hlast]
    rw [List.getLast?_eq_none_iff.mp hlast]
    exact List.pairwise_singleton _ _
  | some lastEvt =>
    simp only [hlast]
    by_cases hle : lastEvt.time ≤ evt.time
    · rw [if_pos hle]
      show sortedByTime (tr.events ++ [evt])
      unfold sortedByTime at hs ⊢
      rw [List.pairwise_append]
      exact ⟨hs, List.pairwise_singleton _ _, fun a ha b hb => by
        rcases List.mem_singleton.mp hb with rfl
        exact le_trans (time_le_getLast_of_sorted tr.events hs lastEvt hlast a ha) hle⟩
    · rw [if_neg hle]
      show sortedByTime ((tr.events ++ [evt]).mergeSort (fun a b => decide (a.time ≤ b.time)))
      have := @List.sorted_mergeSort TrackEvt
        (fun a b => decide (a.time ≤ b.time))
        (fun a b c hab hbc => by
          simp only [decide_eq_true_eq] at *
          exact le_trans hab hbc)
        (fun a b => by
          simp only [Bool.or_eq_true, decide_eq_true_eq]
          exact le_total a.time b.time)
        (tr.events ++ [evt])
      exact this.imp (fun h => of_decide_eq_true h)

/-- A merge sort by time cannot return a list whose last two elements are
out of order, so when the fast path is not taken the result differs from
the plain push. -/
theorem addEvent_resorts (tr : Track) (evt lastEvt : TrackEvt)
    (hlast : tr.events.getLast? = some lastEvt) (hlt : evt.time < lastEvt.time) :
    (tr.addEvent evt).events ≠ tr.events ++ [evt] := by
  intro heq
  have hsorted : sortedByTime (tr.events ++ [evt]) := by
    rw [← heq]
    unfold Track.addEvent
    simp only [hlast]
    rw [if_neg (not_le.mpr hlt)]
    show sortedByTime ((tr.events ++ [evt]).mergeSort (fun a b => decide (a.time ≤ b.time)))
    have := @List.sorted_mergeSort TrackEvt
      (fun a b => decide (a.time ≤ b.time))
      (fun a b c hab hbc => by
        simp only [decide_eq_true_eq] at *
        exact le_trans hab hbc)
      (fun a b => by
        simp only [Bool.or_eq_true, decide_eq_true_eq]
        exact le_total a.time b.time)
      (tr.events ++ [evt])
    exact this.imp (fun h => of_decide_eq_true h)
  unfold sortedByTime at hsorted
  rw [List.pairwise_append] at hsorted
  exact absurd (hsorted.2.2 lastEvt (List.mem_of_mem_getLast? hlast) evt
    (List.mem_singleton.mpr rfl)) (not_le.mpr hlt)

/-- C9: events sorted ascending by time is an invariant: any sequence of
`Track.addEvent` calls starting from the empty track leaves the event
array sorted; moreover `addEvent` skips re-sorting exactly when the new
event's time is at or after the previously last event's time (when there
is a previous event: fast path appends; otherwise the list is re-sorted
and actually differs from the plain append). -/
theorem track_events_sorted_invariant :
    (∀ (tgt : Bool) (l : List TrackEvt),
      sortedByTime ((l.foldl Track.addEvent { events := [], targetDefined := tgt }).events))
    ∧ (∀ (tr : Track) (evt lastEvt : TrackEvt), tr.events.getLast? = some lastEvt →
        (lastEvt.time ≤ evt.time → (tr.addEvent evt).events = tr.events ++ [evt])
        ∧ (evt.time < lastEvt.time → (tr.addEvent evt).events ≠ tr.events ++ [evt]))
    ∧ (∀ (tr : Track) (evt : TrackEvt), tr.events = [] →
        (tr.addEvent evt).events = tr.events ++ [evt]) := by
  refine ⟨?_, ?_, ?_⟩
  · intro tgt l
    have key : ∀ (l : List TrackEvt) (tr : Track), sortedByTime tr.events →
        sortedByTime ((l.foldl Track.addEvent tr).events) := by
      intro l
      induction l with
      | nil => intro tr hs; exact hs
      | cons e es ih =>
        intro tr hs
        exact ih (tr.addEvent e) (addEvent_events_sorted tr e hs)
    exact key l _ (List.Pairwise.nil)
  · intro tr evt lastEvt hlast
    refine ⟨fun hle => ?_, fun hlt => addEvent_resorts tr evt lastEvt hlast hlt⟩
    unfold Track.addEvent
    simp only [hlast]
    rw [if_pos hle]
  · intro tr evt hnil
    unfold Track.addEvent
    rw [hnil]
    rfl

/-- The one-event track used to witness C9's fast/slow paths. -/
def c9Track : Track := { events := [⟨1, 60, true, 1⟩], targetDefined := true }

/-- C9 witness: adding an event at time 2 after the last event (time 1)
takes the fast append path; adding one at time 0 re-sorts and the result
differs from the plain append. -/
theorem track_events_sorted_invariant_witness :
    (c9Track.addEvent ⟨2, 61, true, 1⟩).events = c9Track.events ++ [⟨2, 61, true, 1⟩]
    ∧ (c9Track.addEvent ⟨0, 62, true, 1⟩).events ≠ c9Track.events ++ [⟨0, 62, true, 1⟩] :=
  ⟨(track_events_sorted_invariant.2.1 c9Track ⟨2, 61, true, 1⟩ ⟨1, 60, true, 1⟩ rfl).1
      (by norm_num),
   (track_events_sorted_invariant.2.1 c9Track ⟨0, 62, true, 1⟩ ⟨1, 60, true, 1⟩ rfl).2
      (by norm_num)⟩

/-! ## Piece playback and looping (piece module, class Piece) -/

/-- The piece state that the render handler reads and writes: the track
list, the playback position `playTime`, the loop point `loopTime` and
the previous dispatch time `prevTime`. -/
structure PieceState where
  tracks : List Track
  playTime : ℚ
  loopTime : ℚ
  prevTime : ℚ
deriving DecidableEq

/-- Model of `Piece.dispatch(curTime, realTime)`: each track dispatches the window
`[prevTime, curTime)` (deliveries are concatenated in track order; the
`realTime` argument is only forwarded to `processEvent` and does not
choose which events fire), then `prevTime := curTime`. -/
def PieceState.dispatch (ps : PieceState) (curTime : ℚ) :
    PieceState × List TrackEvt :=
  ({ ps with prevTime := curTime },
   ps.tracks.flatMap (fun tr => tr.dispatch ps.prevTime curTime))

/-- One iteration of the per-block loop inside `Piece.makeHandler`'s
`genAudio`: dispatch up to the block start, generate samples (no event
state involved), advance `curTime` by the block duration, and — when the
advanced time has just passed the loop point while `playTime` had not —
flush up to `loopTime + 0.01` and wrap `curTime` and `prevTime` to 0;
finally `playTime := curTime`.  Returns the new state, the block's first
dispatch and the loop-flush dispatch. -/
def blockStep (ps : PieceState) (curTime delta : ℚ) :
    PieceState × List TrackEvt × List TrackEvt :=
  let d1 := ps.dispatch curTime
  let curTime' := curTime + delta
  if d1.1.playTime ≤ d1.1.loopTime ∧ d1.1.loopTime < curTime' then
    let d2 := d1.1.dispatch (d1.1.loopTime + 1/100)
    ({ d2.1 with prevTime := 0, playTime := 0 }, d1.2, d2.2)
  else
    ({ d1.1 with playTime := curTime' }, d1.2, [])

/-- C5: when a block crosses the loop time (`playTime ≤ loopTime` and the
advanced time is strictly past it), the handler flushes the remaining
events with time below `loopTime + 0.01` (so boundary-time events are
included), resets both the playback time and the previous dispatch time
to 0, and a subsequent block's dispatch fires time-0 events again. -/
theorem piece_loop_wrap (ps : PieceState) (curTime delta : ℚ)
    (hsorted : ∀ tr ∈ ps.tracks, sortedByTime tr.events)
    (htgt : ∀ tr ∈ ps.tracks, tr.targetDefined = true)
    (hplay : ps.playTime ≤ ps.loopTime)
    (hcross : ps.loopTime < curTime + delta) :
    ((blockStep ps curTime delta).2.2
      = ps.tracks.flatMap (fun tr => tr.events.filter
          (fun e => decide (curTime ≤ e.time ∧ e.time < ps.loopTime + 1/100))))
    ∧ (blockStep ps curTime delta).1.playTime = 0
    ∧ (blockStep ps curTime delta).1.prevTime = 0
    ∧ (blockStep ps curTime delta).1.tracks = ps.tracks
    ∧ (∀ delta', 0 < delta' → ∀ tr ∈ ps.tracks, ∀ e ∈ tr.events, e.time = 0 →
        e ∈ ((blockStep ps curTime delta).1.dispatch delta').2) := by
  have hstep : blockStep ps curTime delta
      = ({ (ps.dispatch curTime).1.dispatch ((ps.dispatch curTime).1.loopTime + 1/100) |>.1
            with prevTime := 0, playTime := 0 },
         (ps.dispatch curTime).2,
         ((ps.dispatch curTime).1.dispatch ((ps.dispatch curTime).1.loopTime + 1/100)).2) := by
    unfold blockStep
    rw [if_pos ⟨hplay, hcross⟩]
  rw [hstep]
  refine ⟨?_, rfl, rfl, rfl, ?_⟩
  · show ((ps.dispatch curTime).1.dispatch ((ps.dispatch curTime).1.loopTime + 1/100)).2 = _
    unfold PieceState.dispatch
    apply List.flatMap_congr
    intro tr htr
    exact dispatch_eq_filter tr curTime (ps.loopTime + 1/100) (hsorted tr htr) (htgt tr htr)
  · intro delta' hd tr htr e he ht0
    show e ∈ ps.tracks.flatMap (fun tr => tr.dispatch 0 delta')
    rw [List.mem_flatMap]
    refine ⟨tr, htr, ?_⟩
    rw [dispatch_eq_filter tr 0 delta' (hsorted tr htr) (htgt tr htr), List.mem_filter]
    exact ⟨he, by simp [ht0, le_of_eq, hd]⟩

/-- The one-track state used to witness C5: an event at beat 0 and one at
the loop boundary, with `loopTime = 2` and a block from 1.9 to 2.1. -/
def c5State : PieceState :=
  { tracks := [{ events := [⟨0, 60, true, 1⟩, ⟨2, 61, true, 1⟩], targetDefined := true }],
    playTime := 19/10, loopTime := 2, prevTime := 19/10 }

/-- C5 witness: crossing the loop point from `curTime = 1.9` with block
length 0.2 resets both playback and previous dispatch time to 0. -/
theorem piece_loop_wrap_witness :
    (blockStep c5State (19/10) (1/5)).1.playTime = 0
    ∧ (blockStep c5State (19/10) (1/5)).1.prevTime = 0 :=
  ⟨(piece_loop_wrap c5State (19/10) (1/5)
      (by norm_num [c5State, sortedByTime, List.pairwise_cons])
      (by norm_num [c5State]) (by norm_num [c5State]) (by norm_num [c5State])).2.1,
   (piece_loop_wrap c5State (19/10) (1/5)
      (by norm_num [c5State, sortedByTime, List.pairwise_cons])
      (by norm_num [c5State]) (by norm_num [c5State]) (by norm_num [c5State])).2.2.1⟩

/-! ## The virtual-analog instrument (src/vananlog.ts, class VAnalog) -/

/-- Oscillator waveform selector. -/
inductive OscType
  | sine
  | triangle
  | sawtooth
  | pulse
  | noise
deriving DecidableEq

/-- Per-oscillator parameters (type, duty, detune, amplitude envelope,
mixing volume, sync flag, sync detune). -/
structure OSC where
  type : OscType
  duty : ℚ
  detune : ℚ
  env : ADSREnv
  volume : ℚ
  sync : Bool
  syncDetune : ℚ
deriving DecidableEq

/-- The oscillator parameters as initialised by the `VAnalog`
constructor. -/
def oscD : OSC :=
  { type := .sine, duty := 1/2, detune := 0,
    env := ⟨1/20, 1/20, 1/5, 1/10, 2, 2, 2⟩, volume := 1,
    sync := false, syncDetune := 0 }

/-- Per-voice, per-oscillator state: cycle positions and the envelope
amplitudes snapshot at note-on and note-off. -/
structure OSCState where
  cyclePos : ℚ
  syncCyclePos : ℚ
  onAmp : ℚ
  offAmp : ℚ
deriving DecidableEq

def oscStateD : OSCState := ⟨0, 0, 0, 0⟩

/-- An active voice (`VNote`): note identity (notes are pooled by number,
so identity comparison is note-number equality), velocity, on/off times,
oscillator states, filter state and the filter/pitch envelope snapshots. -/
structure VNote where
  note : ℕ
  vel : ℚ
  onTime : ℚ
  offTime : ℚ
  oscs : List OSCState
  filterSt : List ℚ
  filterOnEnv : ℚ
  filterOffEnv : ℚ
  pitchOnEnv : ℚ
  pitchOffEnv : ℚ
deriving DecidableEq

def vnoteD : VNote := ⟨0, 0, 0, 0, [], [], 0, 0, 0, 0⟩

/-- The `VAnalog` node state used by `processEvent`/`update`. -/
structure VAnalog where
  oscs : List OSC
  cutoff : ℚ
  resonance : ℚ
  filterEnv : ADSREnv
  filterEnvAmt : ℚ
  pitchEnv : ADSREnv
  pitchEnvAmt : ℚ
  actNotes : List VNote
deriving DecidableEq

/-- Events a `VAnalog` node processes. -/
inductive VEvt
  | noteOn (note : ℕ) (vel : ℚ)
  | noteOff (note : ℕ)
  | allNotesOff
deriving DecidableEq

/-- The retrigger branch of the note-on handler: snapshot each
oscillator's envelope value at the current time into `onAmp`, and the
filter/pitch envelope values into `filterOnEnv`/`pitchOnEnv`, all under
the voice's previous on/off times, then set the new on-time, zero
off-time and new velocity. -/
def retrigger (va : VAnalog) (ns : VNote) (time vel : ℚ) : VNote :=
  { ns with
    oscs := List.zipWith (fun (p : OSC) (st : OSCState) =>
        { st with onAmp := p.env.getValue time ns.onTime ns.offTime st.onAmp st.offAmp })
      va.oscs ns.oscs,
    filterOnEnv := va.filterEnv.getValue time ns.onTime ns.offTime
      ns.filterOnEnv ns.filterOffEnv,
    pitchOnEnv := va.pitchEnv.getValue time ns.onTime ns.offTime
      ns.pitchOnEnv ns.pitchOffEnv,
    vel := vel,
    onTime := time,
    offTime := 0 }

/-- The fresh-voice branch of the note-on handler: on-time = event time,
zero off-time, zeroed oscillator and filter state. -/
def newVNote (va : VAnalog) (note : ℕ) (vel time : ℚ) : VNote :=
  { note := note, vel := vel, onTime := time, offTime := 0,
    oscs := List.replicate va.oscs.length oscStateD,
    filterSt := List.replicate 8 0,
    filterOnEnv := 0, filterOffEnv := 0, pitchOnEnv := 0, pitchOffEnv := 0 }

/-- Replace the first voice matching the note (the `for` loop breaks at
the first match) by its retriggered state. -/
def updateFirstMatch (va : VAnalog) (note : ℕ) (vel time : ℚ) :
    List VNote → List VNote
  | [] => []
  | ns :: rest =>
      if ns.note = note then retrigger va ns time vel :: rest
      else ns :: updateFirstMatch va note vel time rest

/-- The note-off handler: snapshot the envelope values into the
off-amplitude fields of the first matching voice and set its off-time. -/
def noteOffUpdate (va : VAnalog) (note : ℕ) (time : ℚ) :
    List VNote → List VNote
  | [] => []
  | ns :: rest =>
      if ns.note = note then
        { ns with
          oscs := List.zipWith (fun (p : OSC) (st : OSCState) =>
              { st with offAmp := p.env.getValue time ns.onTime ns.offTime st.onAmp st.offAmp })
            va.oscs ns.oscs,
          filterOffEnv := va.filterEnv.getValue time ns.onTime ns.offTime
            ns.filterOnEnv ns.filterOffEnv,
          pitchOffEnv := va.pitchEnv.getValue time ns.onTime ns.offTime
            ns.pitchOnEnv ns.pitchOffEnv,
          offTime := time } :: rest
      else ns :: noteOffUpdate va note time rest

/-- Model of `VAnalog.processEvent(evt, time)`. -/
def VAnalog.processEvent (va : VAnalog) (evt : VEvt) (time : ℚ) : VAnalog :=
  match evt with
  | .noteOn note vel =>
      if (va.actNotes.find? (fun st => decide (st.note = note))).isSome then
        { va with actNotes := updateFirstMatch va note vel time va.actNotes }
      else
        { va with actNotes := va.actNotes ++ [newVNote va note vel time] }
  | .noteOff note => { va with actNotes := noteOffUpdate va note time va.actNotes }
  | .allNotesOff => { va with actNotes := [] }

theorem updateFirstMatch_eq_set (va : VAnalog) (note : ℕ) (vel time : ℚ) :
    ∀ (l : List VNote) (i : ℕ), i < l.length →
      (l.getD i vnoteD).note = note →
      (∀ j < i, (l.getD j vnoteD).note ≠ note) →
      updateFirstMatch va note vel time l
        = l.set i (retrigger va (l.getD i vnoteD) time vel) := by
  intro l
  induction l with
  | nil => intro i hi; simp at hi
  | cons ns rest ih =>
    intro i hi hmatch hfirst
    cases i with
    | zero =>
      simp only [List.getD_cons_zero] at hmatch ⊢
      unfold updateFirstMatch
      rw [if_pos hmatch]
      rfl
    | succ i' =>
      have hne : ns.note ≠ note := by
        have := hfirst 0 (Nat.succ_pos i')
        simpa using this
      unfold updateFirstMatch
      rw [if_neg hne]
      simp only [List.getD_cons_succ] at hmatch ⊢
      rw [ih i' (by simpa using hi) hmatch
        (fun j hj => by simpa using hfirst (j + 1) (Nat.succ_lt_succ hj))]
      rfl

/-- C4: a NoteOn for an already-active note replaces (in place) the first
matching voice with a state whose oscillator `onAmp`s are the amplitude
envelopes evaluated at the event time under the voice's previous
`onTime`/`offTime`/`onAmp`/`offAmp` (likewise the filter and pitch
envelope snapshots), and whose `onTime` is the event time, `offTime` is 0
and velocity is the event's — the new attack resumes from the amplitude
present at the moment of retriggering. -/
theorem vanalog_retrigger_resumes (va : VAnalog) (note : ℕ) (vel time : ℚ)
    (i : ℕ) (hi : i < va.actNotes.length)
    (hmatch : (va.actNotes.getD i vnoteD).note = note)
    (hfirst : ∀ j < i, (va.actNotes.getD j vnoteD).note ≠ note) :
    ((va.processEvent (.noteOn note vel) time).actNotes
        = va.actNotes.set i (retrigger va (va.actNotes.getD i vnoteD) time vel))
    ∧ (∀ ns : VNote, ∀ j : ℕ, j < va.oscs.length → j < ns.oscs.length →
        ((retrigger va ns time vel).oscs.getD j oscStateD).onAmp
          = (va.oscs.getD j oscD).env.getValue time ns.onTime ns.offTime
              (ns.oscs.getD j oscStateD).onAmp (ns.oscs.getD j oscStateD).offAmp
        ∧ ((retrigger va ns time vel).oscs.getD j oscStateD).offAmp
          = (ns.oscs.getD j oscStateD).offAmp)
    ∧ (∀ ns : VNote,
        (retrigger va ns time vel).filterOnEnv
          = va.filterEnv.getValue time ns.onTime ns.offTime ns.filterOnEnv ns.filterOffEnv
        ∧ (retrigger va ns time vel).pitchOnEnv
          = va.pitchEnv.getValue time ns.onTime ns.offTime ns.pitchOnEnv ns.pitchOffEnv
        ∧ (retrigger va ns time vel).onTime = time
        ∧ (retrigger va ns time vel).offTime = 0
        ∧ (retrigger va ns time vel).vel = vel) := by
  refine ⟨?_, ?_, ?_⟩
  · have hsome : (va.actNotes.find? (fun st => decide (st.note = note))).isSome := by
      rw [List.find?_isSome]
      refine ⟨va.actNotes.getD i vnoteD, ?_, by simpa using hmatch⟩
      rw [List.getD_eq_getElem _ _ hi]
      exact List.getElem_mem hi
    simp only [VAnalog.processEvent]
    rw [if_pos hsome]
    exact updateFirstMatch_eq_set va note vel time va.actNotes i hi hmatch hfirst
  · intro ns j hj1 hj2
    have hjz : j < (List.zipWith (fun (p : OSC) (st : OSCState) =>
        { st with onAmp := p.env.getValue time ns.onTime ns.offTime st.onAmp st.offAmp })
        va.oscs ns.oscs).length := by
      rw [List.length_zipWith]
      omega
    show ((List.zipWith _ va.oscs ns.oscs).getD j oscStateD).onAmp = _
      ∧ ((List.zipWith _ va.oscs ns.oscs).getD j oscStateD).offAmp = _
    rw [List.getD_eq_getElem _ _ hjz, List.getElem_zipWith,
      List.getD_eq_getElem _ _ hj1, List.getD_eq_getElem _ _ hj2]
    exact ⟨rfl, rfl⟩
  · intro ns
    exact ⟨rfl, rfl, rfl, rfl, rfl⟩

/-- The voice of C4's witness: released at `offTime = 1` with the release
snapshot `offAmp = 0.4`. -/
def c4ns : VNote :=
  { note := 60, vel := 1, onTime := 0, offTime := 1,
    oscs := [⟨0, 0, 0, 2/5⟩], filterSt := List.replicate 8 0,
    filterOnEnv := 0, filterOffEnv := 0, pitchOnEnv := 0, pitchOffEnv := 0 }

/-- The instrument of C4's witness: one oscillator with attack 0.1 and
release 0.1. -/
def c4va : VAnalog :=
  { oscs := [{ oscD with env := ⟨1/10, 1/20, 1/5, 1/10, 2, 2, 2⟩ }],
    cutoff := 1, resonance := 0, filterEnv := ⟨0, 0, 1, 1, 2, 2, 2⟩,
    filterEnvAmt := 1, pitchEnv := ⟨0, 0, 1, 1, 2, 2, 2⟩, pitchEnvAmt := 0,
    actNotes := [c4ns] }

/-- C4 witness: retriggering 0.01 s into the release that started at
amplitude 0.4 replaces the active voice in place, and the snapshot the
new attack resumes from is `(9/10)² · 0.4 = 81/250 = 0.324` — close to
0.4 and in particular not 0. -/
theorem vanalog_retrigger_resumes_witness :
    ((c4va.processEvent (.noteOn 60 1) (101/100)).actNotes
        = c4va.actNotes.set 0 (retrigger c4va (c4va.actNotes.getD 0 vnoteD) (101/100) 1))
    ∧ ((retrigger c4va c4ns (101/100) 1).oscs.getD 0 oscStateD).onAmp = 81/250
    ∧ (81 : ℚ)/250 ≠ 0 := by
  have h := vanalog_retrigger_resumes c4va 60 1 (101/100) 0
    (by norm_num [c4va]) (by norm_num [c4va, c4ns])
    (fun j hj => absurd hj (Nat.not_lt_zero j))
  refine ⟨h.1, ?_, by norm_num⟩
  have h2 := (h.2.1 c4ns 0 (by norm_num [c4va]) (by norm_num [c4ns])).1
  rw [h2]
  norm_num [c4va, c4ns, oscD, ADSREnv.getValue, ADSREnv.interp]

/-- End-of-block time of `VAnalog.update`:
`endTime = time + (outBuf.length - 1) / sampleRate` with
`outBuf.length = SYNTH_BUF_SIZE = 256`. -/
def blockEndTime (time sampleRate : ℚ) : ℚ :=
  time + (256 - 1) / sampleRate

/-- The amplitude value of one oscillator of a voice at the end of the
buffer: `ampEnd = noteVol * env.getValue(endTime, ...)` with
`noteVol = vel * volume`. -/
def ampEnd (p : OSC) (ns : VNote) (st : OSCState) (endTime : ℚ) : ℚ :=
  (ns.vel * p.volume) * p.env.getValue endTime ns.onTime ns.offTime st.onAmp st.offAmp

/-- The `maxEndAmp` of a voice: `Math.max` folded over the per-oscillator
`ampEnd` values, seeded with 0 as in the code. -/
def maxEndAmp (va : VAnalog) (ns : VNote) (endTime : ℚ) : ℚ :=
  ((va.oscs.zip ns.oscs).map (fun pr => ampEnd pr.1 ns pr.2 endTime)).foldl max 0

/-- The voice-list part of `VAnalog.update`: every voice is visited once
in order and spliced out when `maxEndAmp === 0` (the `splice`/`i--`
pattern).  The oscillator-phase and filter-state writes of the loop touch
only fields (`cyclePos`, `syncCyclePos`, `filterSt`) that the retirement
test never reads, and are not modelled. -/
def updateActNotes (va : VAnalog) (endTime : ℚ) : List VNote → List VNote
  | [] => []
  | ns :: rest =>
      if maxEndAmp va ns endTime = 0 then updateActNotes va endTime rest
      else ns :: updateActNotes va endTime rest

/-- Model of `VAnalog.update(time, sampleRate)`: if there are no active notes, do
nothing; otherwise process each voice and retire the fully-decayed
ones. -/
def VAnalog.update (va : VAnalog) (time sampleRate : ℚ) : VAnalog :=
  if va.actNotes.length = 0 then va
  else { va with actNotes := updateActNotes va (blockEndTime time sampleRate) va.actNotes }

theorem mem_updateActNotes (va : VAnalog) (endTime : ℚ) (ns : VNote) :
    ∀ l : List VNote,
      (ns ∈ updateActNotes va endTime l ↔ ns ∈ l ∧ maxEndAmp va ns endTime ≠ 0) := by
  intro l
  induction l with
  | nil => simp [updateActNotes]
  | cons x rest ih =>
    unfold updateActNotes
    by_cases hx : maxEndAmp va x endTime = 0
    · rw [if_pos hx, ih]
      constructor
      · exact fun h => ⟨List.mem_cons_of_mem x h.1, h.2⟩
      · rintro ⟨hmem, hne⟩
        rcases List.mem_cons.mp hmem with rfl | hmem'
        · exact absurd hx hne
        · exact ⟨hmem', hne⟩
    · rw [if_neg hx]
      constructor
      · intro h
        rcases List.mem_cons.mp h with rfl | h'
        · exact ⟨List.mem_cons_self _ _, hx⟩
        · exact ⟨List.mem_cons_of_mem x (ih.mp h').1, (ih.mp h').2⟩
      · rintro ⟨hmem, hne⟩
        rcases List.mem_cons.mp hmem with rfl | hmem'
        · exact List.mem_cons_self _ _
        · exact List.mem_cons_of_mem x (ih.mpr ⟨hmem', hne⟩)

theorem foldl_max_eq_zero_iff :
    ∀ (l : List ℚ) (acc : ℚ), 0 ≤ acc → (∀ a ∈ l, 0 ≤ a) →
      (l.foldl max acc = 0 ↔ acc = 0 ∧ ∀ a ∈ l, a = 0) := by
  intro l
  induction l with
  | nil => intro acc _ _; simp
  | cons a l ih =>
    intro acc hacc hall
    have ha : 0 ≤ a := hall a (List.mem_cons_self _ _)
    rw [List.foldl_cons,
      ih (max acc a) (le_trans hacc (le_max_left _ _))
        (fun b hb => hall b (List.mem_cons_of_mem a hb))]
    constructor
    · rintro ⟨hmax, hrest⟩
      have h1 : acc = 0 :=
        le_antisymm (le_of_le_of_eq (le_max_left acc a) hmax) hacc
      have h2 : a = 0 :=
        le_antisymm (le_of_le_of_eq (le_max_right acc a) hmax) ha
      exact ⟨h1, fun b hb => by
        rcases List.mem_cons.mp hb with rfl | hb'
        · exact h2
        · exact hrest b hb'⟩
    · rintro ⟨h1, h2⟩
      refine ⟨?_, fun b hb => h2 b (List.mem_cons_of_mem a hb)⟩
      rw [h1, h2 a (List.mem_cons_self _ _)]
      exact max_self 0

/-- C7: under a per-block update, an active voice is removed exactly when
the maximum over its oscillators of the end-of-block amplitude values is
0; voices with positive maximum stay (stated for voices with at least one
oscillator and nonnegative amplitude values, the regime the synth
operates in). -/
theorem vanalog_voice_removed_iff (va : VAnalog) (time sampleRate : ℚ)
    (ns : VNote) (hmem : ns ∈ va.actNotes)
    (hne : va.oscs.zip ns.oscs ≠ [])
    (hpos : ∀ q ∈ (va.oscs.zip ns.oscs).map
        (fun pr => ampEnd pr.1 ns pr.2 (blockEndTime time sampleRate)), 0 ≤ q) :
    (ns ∉ (va.update time sampleRate).actNotes
      ↔ ((va.oscs.zip ns.oscs).map
          (fun pr => ampEnd pr.1 ns pr.2 (blockEndTime time sampleRate))).maximum
        = (0 : ℚ)) := by
  have hlen : ¬ va.actNotes.length = 0 := by
    intro hc
    rw [List.length_eq_zero.mp hc] at hmem
    cases hmem
  unfold VAnalog.update
  rw [if_neg hlen]
  show ns ∉ updateActNotes va (blockEndTime time sampleRate) va.actNotes ↔ _
  rw [mem_updateActNotes]
  set amps := (va.oscs.zip ns.oscs).map
    (fun pr => ampEnd pr.1 ns pr.2 (blockEndTime time sampleRate)) with hampsdef
  have hmax0 : maxEndAmp va ns (blockEndTime time sampleRate) = 0
      ↔ ∀ a ∈ amps, a = 0 := by
    unfold maxEndAmp
    rw [foldl_max_eq_zero_iff _ 0 le_rfl hpos]
    simp
  have hmaxcoe : amps.maximum = (0 : ℚ) ↔ ∀ a ∈ amps, a = 0 := by
    rw [List.maximum_eq_coe_iff]
    constructor
    · rintro ⟨_, hub⟩ a ha
      exact le_antisymm (hub a ha) (hpos a ha)
    · intro hall
      have hampsne : amps ≠ [] := by
        rw [hampsdef]
        simpa [List.map_eq_nil_iff] using hne
      rcases List.exists_mem_of_ne_nil amps hampsne with ⟨a, ha⟩
      refine ⟨?_, fun b hb => le_of_eq (hall b hb)⟩
      rw [← hall a ha]
      exact ha
  constructor
  · intro h
    rw [hmaxcoe, ← hmax0]
    by_contra hc
    exact h ⟨hmem, hc⟩
  · intro h hc
    exact hc.2 (hmax0.mpr (hmaxcoe.mp h))

/-- C7 witness: a one-oscillator voice two seconds past its note-off has
end-of-block amplitude 0 and is removed by the update. -/
theorem vanalog_voice_removed_iff_witness :
    c4ns ∉ (c4va.update 2 255).actNotes := by
  have h := vanalog_voice_removed_iff c4va 2 255 c4ns
    (by norm_num [c4va]) (by norm_num [c4va, c4ns])
    (by norm_num [c4va, c4ns, ampEnd, oscD, blockEndTime,
      ADSREnv.getValue, ADSREnv.interp])
  refine h.mpr ?_
  norm_num [c4va, c4ns, ampEnd, oscD, blockEndTime,
    ADSREnv.getValue, ADSREnv.interp, List.maximum_singleton]

/-! ## Synthesis ports (synth module, classes SynthOutput / SynthInput) -/

/-- Constants: `SYNTH_BUF_SIZE = 256`; `SYNTH_ZERO_BUF` is a buffer of 256 zeros. -/
def zeroBuf : List ℚ := List.replicate 256 0

/-- Synthesis output port: channel count, per-channel sample buffers and
the "output was produced in the current iteration" flag. -/
structure SynthOutput where
  numChans : ℕ
  buffers : List (List ℚ)
  hasData : Bool
deriving DecidableEq

/-- Model of `SynthOutput.getBuffer(chanIdx)`: asserts a channel index is given
when there is more than one channel, marks this output as having data,
and returns the requested channel buffer.  `none` models the assertion
failure; the returned `SynthOutput` is the updated port state. -/
def SynthOutput.getBuffer (o : SynthOutput) (chanIdx : Option ℕ) :
    Option (SynthOutput × List ℚ) :=
  if chanIdx = none ∧ 1 < o.numChans then none
  else some ({ o with hasData := true }, o.buffers.getD (chanIdx.getD 0) [])

/-- Synthesis input port: channel count and at most one connected source
output. -/
structure SynthInput where
  numChans : ℕ
  src : Option SynthOutput
deriving DecidableEq

/-- Model of `SynthInput.hasData()`: false when unconnected, else the source's
flag. -/
def SynthInput.hasData (inp : SynthInput) : Bool :=
  match inp.src with
  | none => false
  | some src => src.hasData

/-- The third assertion of `SynthInput.getBuffer`:
`chanIdx! < src.numChans || src.numChans === 1`, where a missing
`chanIdx` compares false. -/
def chanOk (chanIdx : Option ℕ) (srcChans : ℕ) : Bool :=
  (match chanIdx with
   | some c => decide (c < srcChans)
   | none => false) || decide (srcChans = 1)

/-- Model of `SynthInput.getBuffer(chanIdx)`: asserts the input is connected
(`'synth input not connected to any output'`), asserts the channel index
is usable, substitutes `SYNTH_ZERO_BUF` when the source has no data, and
otherwise returns the source buffer (index falling back to 0 when
missing or out of range).  `none` models an assertion failure. -/
def SynthInput.getBuffer (inp : SynthInput) (chanIdx : Option ℕ) :
    Option (List ℚ) :=
  match inp.src with
  | none => none
  | some src =>
      if chanIdx = none ∧ 1 < inp.numChans then none
      else if chanOk chanIdx src.numChans = false then none
      else if src.hasData = false then some zeroBuf
      else
        some (src.buffers.getD
          (if src.numChans ≤ chanIdx.getD 0 then 0 else chanIdx.getD 0) [])

/-- C6 counterexample: reading an input port with no connected source
raises the `'synth input not connected to any output'` assertion (the
model returns `none`) instead of returning the zero buffer. -/
theorem input_getBuffer_unconnected_errors :
    SynthInput.getBuffer ⟨1, none⟩ (some 0) = none
    ∧ (none : Option (List ℚ)) ≠ some zeroBuf := by
  constructor
  · rfl
  · intro h
    cases h

/-- C6 (amended): when the input has a connected source whose `hasData`
flag is false (and the channel-index assertions pass), `getBuffer`
returns the constant all-zero buffer and no error; when the input has no
connected source, `getBuffer` raises an assertion error, and silence for
missing connections is instead achieved through `hasData()`, which
returns false so that callers skip the read. -/
theorem input_getBuffer_silence (inp : SynthInput) (src : SynthOutput)
    (chanIdx : Option ℕ)
    (hsrc : inp.src = some src) (hnd : src.hasData = false)
    (hc1 : ¬(chanIdx = none ∧ 1 < inp.numChans))
    (hc2 : chanOk chanIdx src.numChans = true) :
    inp.getBuffer chanIdx = some zeroBuf
    ∧ (∀ inp' : SynthInput, inp'.src = none →
        inp'.getBuffer chanIdx = none ∧ inp'.hasData = false) := by
  constructor
  · unfold SynthInput.getBuffer
    rw [hsrc]
    simp only
    rw [if_neg hc1, if_neg (by rw [hc2]; exact fun h => Bool.noConfusion h),
      if_pos hnd]
  · intro inp' hinp'
    unfold SynthInput.getBuffer SynthInput.hasData
    rw [hinp']
    exact ⟨rfl, rfl⟩

/-- C6 witness: a mono input connected to a mono source that produced no
data this block reads the zero buffer. -/
theorem input_getBuffer_silence_witness :
    SynthInput.getBuffer ⟨1, some ⟨1, [[3, 4]], false⟩⟩ (some 0) = some zeroBuf :=
  (input_getBuffer_silence ⟨1, some ⟨1, [[3, 4]], false⟩⟩ ⟨1, [[3, 4]], false⟩
    (some 0) rfl rfl (by simp) (by simp [chanOk])).1

/-! ## Per-block output-flag bookkeeping (synth module, SynthNet.genOutput) -/

def dSynthOutput : SynthOutput := ⟨1, [], false⟩

/-- A synthesis node, as far as `genOutput`'s flag bookkeeping goes: its
output ports plus the sequence of own-output indices on which its
`update` method calls `getBuffer`.  In the sources every `update` touches
`hasData` flags only through `SynthOutput.getBuffer` on the node's own
ports, so this sequence captures the whole flag effect of an update. -/
structure SNode where
  outs : List SynthOutput
  updCalls : List ℕ
deriving DecidableEq

def dSNode : SNode := ⟨[], []⟩

/-- Apply the `hasData := true` effects of the `getBuffer` calls an
update performs, in order. -/
def runCalls (outs : List SynthOutput) (calls : List ℕ) : List SynthOutput :=
  calls.foldl (fun outs c => List.modify (fun o => { o with hasData := true }) c outs) outs

/-- The reset loop of `genOutput`: every output of the node gets
`hasData = false` immediately before the node's update runs. -/
def resetOuts (outs : List SynthOutput) : List SynthOutput :=
  outs.map (fun o => { o with hasData := false })

/-- One node's slice of `genOutput`: reset the outputs, then update. -/
def stepNode (nd : SNode) : SNode :=
  { nd with outs := runCalls (resetOuts nd.outs) nd.updCalls }

/-- Model of `SynthNet.genOutput(time)`'s effect on the output flags: process each
node of the stored order in sequence. -/
def genOutput (nodes : List SNode) (order : List ℕ) : List SNode :=
  order.foldl (fun ns k => List.modify stepNode k ns) nodes

theorem getD_modify_ne {α : Type} (f : α → α) (j k : ℕ) (l : List α) (d : α)
    (h : j ≠ k) : (List.modify f j l).getD k d = l.getD k d := by
  by_cases hk : k < l.length
  · rw [List.getD_eq_getElem _ _ (by rw [List.length_modify]; exact hk),
      List.getD_eq_getElem _ _ hk, List.getElem_modify, if_neg h]
  · rw [List.getD_eq_default _ _ (by rw [List.length_modify]; omega),
      List.getD_eq_default _ _ (by omega)]

theorem getD_modify_self {α : Type} (f : α → α) (k : ℕ) (l : List α) (d : α)
    (h : k < l.length) : (List.modify f k l).getD k d = f (l.getD k d) := by
  rw [List.getD_eq_getElem _ _ (by rw [List.length_modify]; exact h),
    List.getD_eq_getElem _ _ h, List.getElem_modify, if_pos rfl]

theorem genOutput_length (nodes : List SNode) :
    ∀ order, (genOutput nodes order).length = nodes.length := by
  have key : ∀ (order : List ℕ) (ns : List SNode),
      (genOutput ns order).length = ns.length := by
    intro order
    induction order with
    | nil => intro ns; rfl
    | cons k rest ih =>
      intro ns
      show (genOutput (List.modify stepNode k ns) rest).length = ns.length
      rw [ih, List.length_modify]
  exact fun order => key order nodes

theorem genOutput_getD_not_mem (k : ℕ) :
    ∀ (order : List ℕ) (nodes : List SNode), k ∉ order →
      (genOutput nodes order).getD k dSNode = nodes.getD k dSNode := by
  intro order
  induction order with
  | nil => intro nodes _; rfl
  | cons j rest ih =>
    intro nodes hk
    show (genOutput (List.modify stepNode j nodes) rest).getD k dSNode = _
    rw [ih _ (fun hc => hk (List.mem_cons_of_mem j hc)),
      getD_modify_ne _ _ _ _ _
        (fun hc => hk (by rw [← hc]; exact List.mem_cons_self j rest))]

theorem genOutput_getD_mem (nodes : List SNode) (order : List ℕ) (k : ℕ)
    (hnd : order.Nodup) (hk : k ∈ order) (hklen : k < nodes.length) :
    (genOutput nodes order).getD k dSNode = stepNode (nodes.getD k dSNode) := by
  obtain ⟨l1, l2, rfl⟩ := List.append_of_mem hk
  have hmid := (List.nodup_middle.mp hnd)
  have hk1 : k ∉ l1 := fun hc => (List.nodup_cons.mp hmid).1 (List.mem_append_left l2 hc)
  have hk2 : k ∉ l2 := fun hc => (List.nodup_cons.mp hmid).1 (List.mem_append_right l1 hc)
  unfold genOutput
  rw [List.foldl_append, List.foldl_cons]
  show (genOutput (List.modify stepNode k (genOutput nodes l1)) l2).getD k dSNode = _
  rw [genOutput_getD_not_mem k l2 _ hk2,
    getD_modify_self _ _ _ _ (by rw [genOutput_length]; exact hklen),
    genOutput_getD_not_mem k l1 nodes hk1]

theorem runCalls_getD_hasData :
    ∀ (calls : List ℕ) (outs : List SynthOutput) (j : ℕ), j < outs.length →
      ((runCalls outs calls).getD j dSynthOutput).hasData
        = ((outs.getD j dSynthOutput).hasData || decide (j ∈ calls)) := by
  intro calls
  induction calls with
  | nil => intro outs j _; simp [runCalls]
  | cons c rest ih =>
    intro outs j hj
    show ((runCalls (List.modify _ c outs) rest).getD j dSynthOutput).hasData = _
    rw [ih _ j (by rw [List.length_modify]; exact hj)]
    by_cases hcj : c = j
    · subst hcj
      rw [getD_modify_self _ _ _ _ hj]
      simp
    · rw [getD_modify_ne _ _ _ _ _ hcj]
      have hjc : (j = c) = False := eq_false (fun h => hcj h.symm)
      simp [List.mem_cons, hjc]

theorem stepNode_hasData_iff (nd : SNode) (j : ℕ) (hj : j < nd.outs.length) :
    (((stepNode nd).outs.getD j dSynthOutput).hasData = true ↔ j ∈ nd.updCalls) := by
  show (((runCalls (resetOuts nd.outs) nd.updCalls).getD j dSynthOutput).hasData = true ↔ _)
  rw [runCalls_getD_hasData nd.updCalls (resetOuts nd.outs) j
    (by simpa [resetOuts] using hj)]
  have hreset : ((resetOuts nd.outs).getD j dSynthOutput).hasData = false := by
    unfold resetOuts
    rw [List.getD_eq_getElem _ _ (by simpa using hj), List.getElem_map]
  rw [hreset]
  simp

/-- C10: `SynthOutput.getBuffer` sets the output's `hasData` flag as a
side effect even when the caller writes nothing, leaving the buffers,
channel count and returned buffer contents unchanged; `genOutput` clears
the flags of each node's outputs exactly once, immediately before that
node's update, so after the block a port's flag is true exactly when its
node's update called `getBuffer` on it, and nodes outside the order keep
their state. -/
theorem output_hasData_flag_semantics :
    (∀ (o : SynthOutput) (chanIdx : Option ℕ) (o' : SynthOutput) (buf : List ℚ),
      o.getBuffer chanIdx = some (o', buf) →
        o'.hasData = true ∧ o'.buffers = o.buffers ∧ o'.numChans = o.numChans
        ∧ buf = o.buffers.getD (chanIdx.getD 0) [])
    ∧ (∀ (nodes : List SNode) (order : List ℕ) (k : ℕ),
        order.Nodup → k ∈ order → k < nodes.length →
        ∀ j, j < (nodes.getD k dSNode).outs.length →
          ((((genOutput nodes order).getD k dSNode).outs.getD j dSynthOutput).hasData = true
            ↔ j ∈ (nodes.getD k dSNode).updCalls))
    ∧ (∀ (nodes : List SNode) (order : List ℕ) (k : ℕ), k ∉ order →
        (genOutput nodes order).getD k dSNode = nodes.getD k dSNode) := by
  refine ⟨?_, ?_, ?_⟩
  · intro o chanIdx o' buf h
    unfold SynthOutput.getBuffer at h
    by_cases hc : chanIdx = none ∧ 1 < o.numChans
    · rw [if_pos hc] at h
      cases h
    · rw [if_neg hc] at h
      injection h with h'
      injection h' with h1 h2
      subst h1
      subst h2
      exact ⟨rfl, rfl, rfl, rfl⟩
  · intro nodes order k hnd hk hklen j hj
    rw [genOutput_getD_mem nodes order k hnd hk hklen]
    exact stepNode_hasData_iff (nodes.getD k dSNode) j hj
  · exact fun nodes order k hk => genOutput_getD_not_mem k order nodes hk

/-- The two-node network of C10's witness: node 0's update reads its
output buffer once, node 1's update never does (though its flag was
stale-true before the block). -/
def c10Nodes : List SNode := [⟨[⟨1, [], false⟩], [0]⟩, ⟨[⟨1, [], true⟩], []⟩]

/-- C10 witness: after a block over order `[0, 1]`, node 0's port has
data and node 1's stale flag has been reset. -/
theorem output_hasData_flag_semantics_witness :
    (((genOutput c10Nodes [0, 1]).getD 0 dSNode).outs.getD 0 dSynthOutput).hasData = true
    ∧ (((genOutput c10Nodes [0, 1]).getD 1 dSNode).outs.getD 0 dSynthOutput).hasData
        = false := by
  constructor
  · exact (output_hasData_flag_semantics.2.1 c10Nodes [0, 1] 0
      (by decide) (by decide) (by decide) 0 (by decide)).mpr (by decide)
  · rw [Bool.eq_false_iff]
    intro hc
    have := (output_hasData_flag_semantics.2.1 c10Nodes [0, 1] 1
      (by decide) (by decide) (by decide) 0 (by decide)).mp hc
    simp [c10Nodes, dSNode] at this

/-! ## Note names (src/music.ts, Note.nameToNo) -/

/-- A pitch-class letter as matched by the name regex `[A-G]`. -/
inductive NoteLetter
  | A
  | B
  | C
  | D
  | E
  | F
  | G
deriving DecidableEq

/-- The `NOTE_NAME_PC` table: pitch classes for the twelve note names
with optional sharp; combinations absent from the table (E#, B#) give
`none`, which makes `nameToNo`'s `typeof pc === 'number'` assertion
fail. -/
def NOTE_NAME_PC (letter : NoteLetter) (sharp : Bool) : Option ℕ :=
  match letter, sharp with
  | .C, false => some 0
  | .C, true => some 1
  | .D, false => some 2
  | .D, true => some 3
  | .E, false => some 4
  | .E, true => none
  | .F, false => some 5
  | .F, true => some 6
  | .G, false => some 7
  | .G, true => some 8
  | .A, false => some 9
  | .A, true => some 10
  | .B, false => some 11
  | .B, true => none

/-- Model of `Note.nameToNo` after the regex `([A-G]#?)([0-9])` has matched: the
octave digit and pitch class give `noteNo = (octNo + 1) * 12 + pc`, then
the range assertion `noteNo >= 0 || noteNo < NUM_NOTES` (with
`NUM_NOTES = 128`) runs; `none` models an assertion failure. -/
def nameToNo (letter : NoteLetter) (sharp : Bool) (digit : ℕ) : Option ℤ :=
  match NOTE_NAME_PC letter sharp with
  | none => none
  | some pc =>
      let noteNo : ℤ := (digit + 1) * 12 + pc
      if noteNo ≥ 0 ∨ noteNo < 128 then some noteNo else none

/-- C8: the parser accepts "B9", but the computed note number is
131 > 127, outside the MIDI range, and the range assertion
(`noteNo >= 0 || noteNo < 128`, an `||` where `&&` was clearly intended)
passes vacuously: its failure branch is unreachable for every accepted
name, in range or not, because the computed number is always
nonnegative. -/
theorem nameToNo_range_assert_vacuous :
    nameToNo .B false 9 = some 131
    ∧ ¬((131 : ℤ) ≤ 127)
    ∧ (∀ (letter : NoteLetter) (sharp : Bool) (digit : ℕ) (pc : ℕ),
        NOTE_NAME_PC letter sharp = some pc → nameToNo letter sharp digit ≠ none) := by
  refine ⟨by decide, by decide, ?_⟩
  intro letter sharp digit pc hpc
  unfold nameToNo
  rw [hpc]
  simp only
  rw [if_pos (Or.inl (by positivity))]
  exact fun h => Option.noConfusion h

/-- C8 witness: "C4" parses, and the assertion (vacuously) passes. -/
theorem nameToNo_range_assert_vacuous_witness :
    nameToNo .C false 4 ≠ none :=
  nameToNo_range_assert_vacuous.2.2 .C false 4 0 rfl

/-! ## Node ordering (synth module, SynthNet.orderNodes)

`orderNodes` is Kahn's algorithm over the port-connection graph.  The
embedding identifies the nodes with their index in `SynthNet.nodes`;
`outDsts[s]` lists, in output-port/`dsts` discovery order, the indices of
the destination nodes of every connection leaving node `s` (one entry per
connected input port).  The per-node `inEdges` lists and the `numEdges`
counter of the code are views of these same connections (the code builds
them from the shared object graph), so in-degrees are derived from
`outDsts` and `numEdges` is the sum of the remaining in-degrees, which
the code and the model decrement in lockstep. -/

structure SynthNetG where
  n : ℕ
  outDsts : List (List ℕ)
deriving DecidableEq

/-- Consistency of the connection structure: one `outDsts` entry per
node and destinations inside the network. -/
def SynthNetG.valid (net : SynthNetG) : Prop :=
  net.outDsts.length = net.n ∧ ∀ l ∈ net.outDsts, ∀ d ∈ l, d < net.n

instance (net : SynthNetG) : Decidable net.valid := by
  unfold SynthNetG.valid; infer_instance

/-- The relation `edge s d`: some output of `s` is connected to an input of `d`. -/
def SynthNetG.edge (net : SynthNetG) (s d : ℕ) : Prop :=
  d ∈ net.outDsts.getD s []

/-- A cycle in the connection graph. -/
def SynthNetG.hasCycle (net : SynthNetG) : Prop :=
  ∃ x, Relation.TransGen net.edge x x

/-- The inner edge-removal loop of `orderNodes`: for each destination of
the popped node (in order), the edge is removed (`inEdges.splice`,
`numEdges--`, modelled as one in-degree decrement), failing with
`'input port not found'` (`none`) when no such edge remains, and the
destination is pushed onto `S` when its in-degree reaches 0. -/
def procOut : List ℕ → List ℕ × List ℕ → Option (List ℕ × List ℕ)
  | [], st => some st
  | d :: ds, (deg, S) =>
      if deg.getD d 0 = 0 then none
      else
        procOut ds (deg.set d (deg.getD d 0 - 1),
          if deg.getD d 0 - 1 = 0 then d :: S else S)

theorem procOut_measure :
    ∀ (ds : List ℕ) (deg S deg' S'' : List ℕ),
      procOut ds (deg, S) = some (deg', S'') →
      deg'.sum + S''.length ≤ deg.sum + S.length := by
  intro ds
  induction ds with
  | nil =>
    intro deg S deg' S'' h
    injection h with h'
    injection h' with h1 h2
    subst h1; subst h2
    exact le_refl _
  | cons d ds ih =>
    intro deg S deg' S'' h
    unfold procOut at h
    by_cases hz : deg.getD d 0 = 0
    · rw [if_pos hz] at h
      cases h
    · rw [if_neg hz] at h
      have hd : d < deg.length := by
        by_contra hc
        exact hz (List.getD_eq_default _ _ (by omega))
      have hsum : (deg.set d (deg.getD d 0 - 1)).sum + 1 ≤ deg.sum := by
        have hsplit := List.sum_set deg d (deg.getD d 0 - 1)
        have hsplit2 := List.sum_set deg d (deg.getD d 0)
        have hself : deg.set d (deg.getD d 0) = deg := by
          apply List.ext_getElem
          · rw [List.length_set]
          · intro i h1 h2
            rw [List.getElem_set]
            split
            · next heq => subst heq; exact List.getD_eq_getElem _ _ hd
            · rfl
        rw [hself] at hsplit2
        rw [if_pos hd] at hsplit hsplit2
        omega
      have := ih _ _ _ _ h
      by_cases hp : deg.getD d 0 - 1 = 0
      · rw [if_pos hp] at this
        simp only [List.length_cons] at this
        omega
      · rw [if_neg hp] at this
        omega

/-- The `while (S.length > 0)` loop of `orderNodes`.  `S` is kept
top-first (JS pushes/pops at the array's end), `L` accumulates the
ordering. -/
def kahnLoop (net : SynthNetG) : List ℕ → List ℕ → List ℕ → Option (List ℕ × List ℕ)
  | deg, [], L => some (deg, L)
  | deg, s :: S', L =>
      match hp : procOut (net.outDsts.getD s []) (deg, S') with
      | none => none
      | some (deg', S'') => kahnLoop net deg' S'' (L ++ [s])
termination_by deg S _ => deg.sum + S.length
decreasing_by
  have := procOut_measure _ _ _ _ _ hp
  simp only [List.length_cons]
  omega

/-- Model of `SynthNet.orderNodes()`: build the in-degrees and the initial set of
no-input nodes (scanned in index order), run Kahn's loop, then assert
`numEdges === 0` and `L.length === nodes.length`; on success the
ordering is stored.  `none` models an assertion failure (no ordering is
stored). -/
def SynthNetG.orderNodes (net : SynthNetG) : Option (List ℕ) :=
  match kahnLoop net
    ((List.range net.n).map (fun d => net.outDsts.flatten.count d))
    (((List.range net.n).filter
        (fun i => decide (net.outDsts.flatten.count i = 0))).reverse)
    [] with
  | none => none
  | some (degF, L) =>
      if degF.sum = 0 ∧ L.length = net.n then some L else none

theorem getD_set_eq (deg : List ℕ) (d v : ℕ) (hd : d < deg.length) :
    ∀ x, (deg.set d v).getD x 0 = if d = x then v else deg.getD x 0 := by
  intro x
  by_cases hx : x < deg.length
  · rw [List.getD_eq_getElem _ _ (by rw [List.length_set]; exact hx),
      List.getElem_set]
    split
    · rfl
    · exact (List.getD_eq_getElem _ _ hx).symm
  · rw [List.getD_eq_default _ _ (by rw [List.length_set]; omega),
      if_neg (by omega), List.getD_eq_default _ _ (by omega)]

/-- Full characterisation of the edge-removal loop when every processed
destination has enough remaining in-degree: it succeeds, decrements each
in-degree by the number of edges to it, and pushes exactly the
destinations whose in-degree reaches 0 (each once). -/
theorem procOut_spec :
    ∀ (ds : List ℕ) (deg S : List ℕ),
      (∀ d ∈ ds, ds.count d ≤ deg.getD d 0) →
      (∀ d ∈ ds, d < deg.length) →
      ∃ deg' S'', procOut ds (deg, S) = some (deg', S'')
        ∧ deg'.length = deg.length
        ∧ (∀ x, deg'.getD x 0 = deg.getD x 0 - ds.count x)
        ∧ (∀ x, x ∈ S'' ↔ x ∈ S ∨ (x ∈ ds ∧ deg.getD x 0 = ds.count x))
        ∧ (S.Nodup → (∀ x ∈ S, deg.getD x 0 = 0) → S''.Nodup) := by
  intro ds
  induction ds with
  | nil =>
    intro deg S _ _
    exact ⟨deg, S, rfl, rfl, by simp, by simp, fun h _ => h⟩
  | cons d ds ih =>
    intro deg S hcnt hlen
    have hd1 : 1 ≤ deg.getD d 0 := by
      have := hcnt d (List.mem_cons_self d ds)
      have hpos : 0 < (d :: ds).count d := by
        rw [List.count_pos_iff]
        exact List.mem_cons_self d ds
      omega
    have hz : ¬ deg.getD d 0 = 0 := by omega
    have hdlen : d < deg.length := hlen d (List.mem_cons_self d ds)
    have hcount_cons : ∀ x, (d :: ds).count x = ds.count x + if x = d then 1 else 0 := by
      intro x
      by_cases h : x = d
      · subst h
        simp [List.count_cons]
      · simp [List.count_cons, h]
    set A := deg.getD d 0 with hA
    set deg1 := deg.set d (A - 1) with hdeg1
    have hdeg1getD : ∀ x, deg1.getD x 0 = if d = x then A - 1 else deg.getD x 0 :=
      getD_set_eq deg d (A - 1) hdlen
    have hcntA : ds.count d + 1 ≤ A := by
      have h1 := hcnt d (List.mem_cons_self d ds)
      rw [hcount_cons d, if_pos rfl] at h1
      omega
    obtain ⟨deg', S'', heq, hlen', hgetD, hmem, hnd⟩ :=
      ih deg1 (if A - 1 = 0 then d :: S else S)
        (by
          intro e he
          rw [hdeg1getD e]
          by_cases hed : d = e
          · subst hed
            rw [if_pos rfl]
            omega
          · rw [if_neg hed]
            have h1 := hcnt e (List.mem_cons_of_mem d he)
            rw [hcount_cons e, if_neg (fun hc => hed hc.symm)] at h1
            omega)
        (by
          intro e he
          rw [hdeg1, List.length_set]
          exact hlen e (List.mem_cons_of_mem d he))
    refine ⟨deg', S'', ?_, ?_, ?_, ?_, ?_⟩
    · show procOut (d :: ds) (deg, S) = some (deg', S'')
      unfold procOut
      rw [if_neg hz]
      exact heq
    · rw [hlen', hdeg1, List.length_set]
    · intro x
      rw [hgetD x, hdeg1getD x, hcount_cons x]
      by_cases hxd : d = x
      · rw [if_pos hxd, if_pos hxd.symm]
        subst hxd
        omega
      · rw [if_neg hxd, if_neg (fun hc => hxd hc.symm)]
        omega
    · intro x
      rw [hmem x]
      by_cases hxd : x = d
      · subst hxd
        by_cases hpz : A - 1 = 0
        · rw [if_pos hpz]
          have hcnt0 : ds.count x = 0 := by omega
          constructor
          · intro _
            right
            refine ⟨List.mem_cons_self x ds, ?_⟩
            rw [hcount_cons x, if_pos rfl, ← hA]
            omega
          · intro _
            left
            exact List.mem_cons_self x S
        · rw [if_neg hpz]
          constructor
          · rintro (hS | ⟨hds, hcc⟩)
            · exact Or.inl hS
            · rw [hdeg1getD x, if_pos rfl] at hcc
              right
              refine ⟨List.mem_cons_self x ds, ?_⟩
              rw [hcount_cons x, if_pos rfl, ← hA]
              omega
          · rintro (hS | ⟨_, hcc⟩)
            · exact Or.inl hS
            · rw [hcount_cons x, if_pos rfl, ← hA] at hcc
              right
              have hdspos : 0 < ds.count x := by omega
              refine ⟨List.count_pos_iff.mp hdspos, ?_⟩
              rw [hdeg1getD x, if_pos rfl]
              omega
      · have hS1 : (x ∈ (if A - 1 = 0 then d :: S else S)) ↔ x ∈ S := by
          split
          · simp [List.mem_cons, hxd]
          · exact Iff.rfl
        rw [hS1]
        have hdm : (x ∈ d :: ds) ↔ x ∈ ds := by
          simp [List.mem_cons, hxd]
        rw [hdm, hdeg1getD x, if_neg (fun hc => hxd hc.symm),
          hcount_cons x, if_neg hxd]
        simp
    · intro hSnd hS0
      apply hnd
      · split
        · next hpz =>
          refine List.nodup_cons.mpr ⟨?_, hSnd⟩
          intro hc
          have := hS0 d hc
          omega
        · exact hSnd
      · intro x hx
        rw [hdeg1getD x]
        by_cases hdx : d = x
        · rw [if_pos hdx]
          by_cases hpz : A - 1 = 0
          · exact hpz
          · rw [if_neg hpz] at hx
            have hx0 := hS0 x hx
            rw [← hdx] at hx0
            omega
        · rw [if_neg hdx]
          have hxS : x ∈ S := by
            by_cases hpz : A - 1 = 0
            · rw [if_pos hpz] at hx
              rcases List.mem_cons.mp hx with rfl | hx'
              · exact absurd rfl hdx
              · exact hx'
            · rw [if_neg hpz] at hx
              exact hx
          exact hS0 x hxS

/-- The number of connections that still arrive at `d`, counting only
sources that have not yet been popped into `L`: this is what the code
keeps in `d.inEdges.length`, and `numEdges` is its sum over all nodes. -/
def remDeg (net : SynthNetG) (L : List ℕ) (d : ℕ) : ℕ :=
  (((List.range net.n).filter (fun s => decide (s ∉ L))).map
    (fun s => (net.outDsts.getD s []).count d)).sum

theorem count_le_remDeg (net : SynthNetG) (L : List ℕ) (s d : ℕ)
    (hs : s < net.n) (hsL : s ∉ L) :
    (net.outDsts.getD s []).count d ≤ remDeg net L d := by
  apply List.single_le_sum (fun x _ => Nat.zero_le x)
  exact List.mem_map.mpr ⟨s,
    List.mem_filter.mpr ⟨List.mem_range.mpr hs, by simpa using hsL⟩, rfl⟩

theorem remDeg_append (net : SynthNetG) (L : List ℕ) (s d : ℕ)
    (hs : s < net.n) (hsL : s ∉ L) :
    remDeg net (L ++ [s]) d = remDeg net L d - (net.outDsts.getD s []).count d := by
  unfold remDeg
  set T := (List.range net.n).filter (fun x => decide (x ∉ L)) with hT
  have hTnd : T.Nodup := List.Nodup.filter _ (List.nodup_range net.n)
  have hsT : s ∈ T :=
    List.mem_filter.mpr ⟨List.mem_range.mpr hs, by simpa using hsL⟩
  have hfilter : (List.range net.n).filter (fun x => decide (x ∉ L ++ [s]))
      = T.erase s := by
    rw [List.Nodup.erase_eq_filter hTnd s, hT, List.filter_filter]
    apply List.filter_congr
    intro x _
    by_cases hxL : x ∈ L
    · simp [hxL, List.mem_append]
    · by_cases hxs : x = s
      · simp [hxs, List.mem_append]
      · simp [hxL, hxs, List.mem_append]
  rw [hfilter]
  have hperm : T.Perm (s :: T.erase s) := List.perm_cons_erase hsT
  have hsum := (hperm.map (fun s => (net.outDsts.getD s []).count d)).sum_eq
  rw [List.map_cons, List.sum_cons] at hsum
  omega

/-- The loop invariant of Kahn's algorithm: the in-degrees track the
connections from un-popped sources, `S` and `L` are duplicate-free and
disjoint with known in-degrees, every zero-degree node has been seen, and
`L` is topologically sorted so far. -/
def KInv (net : SynthNetG) (deg S L : List ℕ) : Prop :=
  deg.length = net.n
  ∧ (∀ d, deg.getD d 0 = remDeg net L d)
  ∧ S.Nodup
  ∧ L.Nodup
  ∧ (∀ x ∈ S, x < net.n)
  ∧ (∀ x ∈ L, x < net.n)
  ∧ (∀ x ∈ S, x ∉ L)
  ∧ (∀ x ∈ S, deg.getD x 0 = 0)
  ∧ (∀ x ∈ L, deg.getD x 0 = 0)
  ∧ (∀ x, x < net.n → deg.getD x 0 = 0 → x ∈ S ∨ x ∈ L)
  ∧ (∀ s d, net.edge s d → d ∈ L → s ∈ L ∧ L.indexOf s < L.indexOf d)

/-- An edge's source lies inside the network (an out-of-range source has
no `outDsts` entry). -/
theorem edge_src_lt (net : SynthNetG) (hv : net.valid) {s d : ℕ}
    (h : net.edge s d) : s < net.n := by
  by_contra hc
  have h1 := hv.1
  unfold SynthNetG.edge at h
  rw [List.getD_eq_default _ _ (by omega)] at h
  cases h

theorem edge_dst_lt (net : SynthNetG) (hv : net.valid) {s d : ℕ}
    (h : net.edge s d) : d < net.n := by
  have hs := edge_src_lt net hv h
  have hslen : s < net.outDsts.length := by rw [hv.1]; exact hs
  unfold SynthNetG.edge at h
  rw [List.getD_eq_getElem _ _ hslen] at h
  exact hv.2 _ (List.getElem_mem hslen) _ h

/-- The state `orderNodes` sets up before the loop satisfies the
invariant. -/
theorem init_KInv (net : SynthNetG) (hv : net.valid) :
    KInv net
      ((List.range net.n).map (fun d => net.outDsts.flatten.count d))
      (((List.range net.n).filter
          (fun i => decide (net.outDsts.flatten.count i = 0))).reverse)
      [] := by
  set deg0 := (List.range net.n).map (fun d => net.outDsts.flatten.count d) with hdeg0
  have hlen0 : deg0.length = net.n := by
    rw [hdeg0, List.length_map, List.length_range]
  have hgetD0 : ∀ d, d < net.n → deg0.getD d 0 = net.outDsts.flatten.count d := by
    intro d hd
    rw [hdeg0, List.getD_eq_getElem _ _ (by rw [List.length_map, List.length_range]; exact hd),
      List.getElem_map, List.getElem_range]
  have hrem0 : ∀ d, deg0.getD d 0 = remDeg net [] d := by
    intro d
    have hmapeq : (List.range net.n).map (fun s => (net.outDsts.getD s []).count d)
        = net.outDsts.map (fun l => l.count d) := by
      apply List.ext_getElem
      · rw [List.length_map, List.length_range, List.length_map, hv.1]
      · intro i h1 h2
        rw [List.getElem_map, List.getElem_map, List.getElem_range,
          List.getD_eq_getElem _ _ (by simpa [List.length_map, hv.1] using h2)]
    by_cases hd : d < net.n
    · rw [hgetD0 d hd]
      unfold remDeg
      rw [List.filter_congr (fun x _ => by simp : ∀ x ∈ List.range net.n,
          (decide (x ∉ ([] : List ℕ))) = true),
        List.filter_eq_self.mpr (fun a _ => rfl), hmapeq, ← List.count_flatten]
    · rw [List.getD_eq_default _ _ (by omega)]
      unfold remDeg
      symm
      rw [List.filter_congr (fun x _ => by simp : ∀ x ∈ List.range net.n,
          (decide (x ∉ ([] : List ℕ))) = true),
        List.filter_eq_self.mpr (fun a _ => rfl), hmapeq]
      apply List.sum_eq_zero
      intro x hx
      obtain ⟨l, hl, rfl⟩ := List.mem_map.mp hx
      rw [List.count_eq_zero]
      intro hc
      exact absurd (hv.2 l hl d hc) (by omega)
  refine ⟨hlen0, hrem0, ?_, List.nodup_nil, ?_, ?_, ?_, ?_, ?_, ?_, ?_⟩
  · rw [List.nodup_reverse]
    exact List.Nodup.filter _ (List.nodup_range net.n)
  · intro x hx
    rw [List.mem_reverse] at hx
    exact List.mem_range.mp (List.mem_filter.mp hx).1
  · intro x hx
    cases hx
  · intro x _
    exact fun hc => by cases hc
  · intro x hx
    rw [List.mem_reverse] at hx
    have := (List.mem_filter.mp hx).2
    rw [hgetD0 x (List.mem_range.mp (List.mem_filter.mp hx).1)]
    simpa using this
  · intro x hx
    cases hx
  · intro x hxn hx0
    left
    rw [List.mem_reverse]
    refine List.mem_filter.mpr ⟨List.mem_range.mpr hxn, ?_⟩
    rw [hgetD0 x hxn] at hx0
    simpa using hx0
  · intro s d _ hd
    cases hd

theorem indexOf_append_right {α : Type} [DecidableEq α] (s : α) :
    ∀ L : List α, s ∉ L → (L ++ [s]).indexOf s = L.length := by
  intro L
  induction L with
  | nil => intro _; simp
  | cons a L ih =>
    intro h
    have hsa : s ≠ a := fun hc => h (hc ▸ List.mem_cons_self a L)
    rw [List.cons_append, List.indexOf_cons, List.length_cons]
    have hb : (a == s) = false := beq_eq_false_iff_ne.mpr (fun hc => hsa hc.symm)
    rw [hb, cond_false, ih (fun hc => h (List.mem_cons_of_mem a hc))]

/-- Under the invariant the loop never hits the `'input port not found'`
assertion and ends with an empty stack, an invariant-satisfying final
state, and all of `L` processed. -/
theorem kahnLoop_spec (net : SynthNetG) (hv : net.valid) :
    ∀ (N : ℕ) (deg S L : List ℕ), deg.sum + S.length ≤ N → KInv net deg S L →
      ∃ degF LF, kahnLoop net deg S L = some (degF, LF) ∧ KInv net degF [] LF := by
  intro N
  induction N with
  | zero =>
    intro deg S L hm hinv
    have hS : S = [] := List.length_eq_zero.mp (by omega)
    subst hS
    exact ⟨deg, L, by rw [kahnLoop], hinv⟩
  | succ N ih =>
    intro deg S L hm hinv
    cases S with
    | nil => exact ⟨deg, L, by rw [kahnLoop], hinv⟩
    | cons s S' =>
      obtain ⟨h1, h2, h3, h4, h5, h6, h7, h8, h9, h10, h11⟩ := hinv
      have hsn : s < net.n := h5 s (List.mem_cons_self s S')
      have hsL : s ∉ L := h7 s (List.mem_cons_self s S')
      have hs0 : deg.getD s 0 = 0 := h8 s (List.mem_cons_self s S')
      set ds := net.outDsts.getD s [] with hds
      have hdsn : ∀ d ∈ ds, d < net.n := fun d hd =>
        edge_dst_lt net hv (show net.edge s d from hd)
      have hcnt' : ∀ d ∈ ds, ds.count d ≤ deg.getD d 0 := by
        intro d _
        rw [h2 d]
        exact count_le_remDeg net L s d hsn hsL
      obtain ⟨deg', S'', heq, hlen', hgetD, hmem, hnd⟩ :=
        procOut_spec ds deg S' hcnt'
          (fun d hd => by rw [h1]; exact hdsn d hd)
      have hS'nd : S'.Nodup := (List.nodup_cons.mp h3).2
      have hsS' : s ∉ S' := (List.nodup_cons.mp h3).1
      have hKInv' : KInv net deg' S'' (L ++ [s]) := by
        refine ⟨?_, ?_, ?_, ?_, ?_, ?_, ?_, ?_, ?_, ?_, ?_⟩
        · rw [hlen', h1]
        · intro d
          rw [hgetD d, h2 d, remDeg_append net L s d hsn hsL]
        · exact hnd hS'nd (fun x hx => h8 x (List.mem_cons_of_mem s hx))
        · refine List.nodup_append.mpr ⟨h4, List.nodup_singleton s, ?_⟩
          intro a ha hb
          rcases List.mem_singleton.mp hb with rfl
          exact hsL ha
        · intro x hx
          rcases (hmem x).mp hx with hx' | ⟨hxds, _⟩
          · exact h5 x (List.mem_cons_of_mem s hx')
          · exact hdsn x hxds
        · intro x hx
          rcases List.mem_append.mp hx with hx' | hx'
          · exact h6 x hx'
          · rcases List.mem_singleton.mp hx' with rfl
            exact hsn
        · intro x hx hc
          rcases (hmem x).mp hx with hx' | ⟨hxds, hxcnt⟩
          · rcases List.mem_append.mp hc with hc' | hc'
            · exact h7 x (List.mem_cons_of_mem s hx') hc'
            · rcases List.mem_singleton.mp hc' with rfl
              exact hsS' hx'
          · have hpos : 0 < ds.count x := List.count_pos_iff.mpr hxds
            rcases List.mem_append.mp hc with hc' | hc'
            · have := h9 x hc'
              omega
            · rcases List.mem_singleton.mp hc' with rfl
              omega
        · intro x hx
          rw [hgetD x]
          rcases (hmem x).mp hx with hx' | ⟨_, hxcnt⟩
          · have := h8 x (List.mem_cons_of_mem s hx')
            omega
          · omega
        · intro x hx
          rw [hgetD x]
          rcases List.mem_append.mp hx with hx' | hx'
          · have := h9 x hx'
            omega
          · rcases List.mem_singleton.mp hx' with rfl
            omega
        · intro x hxn hx0
          rw [hgetD x] at hx0
          by_cases hdx : deg.getD x 0 = 0
          · rcases h10 x hxn hdx with hx' | hx'
            · rcases List.mem_cons.mp hx' with rfl | hx''
              · right
                exact List.mem_append_right L (List.mem_singleton.mpr rfl)
              · left
                exact (hmem x).mpr (Or.inl hx'')
            · right
              exact List.mem_append_left [s] hx'
          · have hxds : x ∈ ds := by
              rw [← List.count_pos_iff (a := x) (l := ds)]
              omega
            have hle := hcnt' x hxds
            left
            exact (hmem x).mpr (Or.inr ⟨hxds, by omega⟩)
        · intro a b hab hbL'
          rcases List.mem_append.mp hbL' with hbL | hbs
          · obtain ⟨haL, hidx⟩ := h11 a b hab hbL
            refine ⟨List.mem_append_left [s] haL, ?_⟩
            rw [List.indexOf_append_of_mem haL, List.indexOf_append_of_mem hbL]
            exact hidx
          · rcases List.mem_singleton.mp hbs with rfl
            have han : a < net.n := edge_src_lt net hv hab
            have hcnt_pos : 0 < (net.outDsts.getD a []).count b :=
              List.count_pos_iff.mpr hab
            have haL : a ∈ L := by
              by_contra haLn
              have hle := count_le_remDeg net L a b han haLn
              rw [← h2 b] at hle
              omega
            refine ⟨List.mem_append_left [b] haL, ?_⟩
            rw [List.indexOf_append_of_mem haL, indexOf_append_right b L hsL]
            exact List.indexOf_lt_length.mpr haL
      have hm' : deg'.sum + S''.length ≤ N := by
        have hme := procOut_measure ds deg S' deg' S'' heq
        simp only [List.length_cons] at hm
        omega
      obtain ⟨degF, LF, heqF, hinvF⟩ := ih deg' S'' (L ++ [s]) hm' hKInv'
      refine ⟨degF, LF, ?_, hinvF⟩
      rw [kahnLoop]
      split
      · next heq0 =>
        rw [heq0] at heq
        cases heq
      · next deg1 S1 heq1 =>
        rw [heq1] at heq
        injection heq with heq2
        injection heq2 with ha hb
        subst ha
        subst hb
        exact heqF

/-- A finite nonempty set in which every element has a predecessor
contains a cycle (iterate predecessors and apply the pigeonhole
principle). -/
theorem cycle_of_preds (r : ℕ → ℕ → Prop) (U : List ℕ) (hne : U ≠ [])
    (h : ∀ u ∈ U, ∃ p, p ∈ U ∧ r p u) : ∃ x, Relation.TransGen r x x := by
  obtain ⟨u0, hu0⟩ := List.exists_mem_of_ne_nil U hne
  let g : ℕ → {x : ℕ // x ∈ U} := fun k =>
    Nat.rec ⟨u0, hu0⟩
      (fun _ prev => ⟨Classical.choose (h prev.1 prev.2),
        (Classical.choose_spec (h prev.1 prev.2)).1⟩) k
  have hedge : ∀ k, r (g (k + 1)).1 (g k).1 := by
    intro k
    exact (Classical.choose_spec (h (g k).1 (g k).2)).2
  have hchain : ∀ i j, i < j → Relation.TransGen r (g j).1 (g i).1 := by
    intro i j
    induction j with
    | zero => intro h0; exact absurd h0 (Nat.not_lt_zero i)
    | succ j ihj =>
      intro hij
      rcases Nat.lt_succ_iff_lt_or_eq.mp hij with hlt | heq
      · exact Relation.TransGen.head (hedge j) (ihj hlt)
      · rw [heq]
        exact Relation.TransGen.single (hedge j)
  obtain ⟨i, _, j, _, hne', heq'⟩ :=
    Finset.exists_ne_map_eq_of_card_lt_of_maps_to
      (s := (Finset.univ : Finset (Fin (U.length + 1)))) (t := U.toFinset)
      (f := fun a : Fin (U.length + 1) => (g a.1).1)
      (by
        rw [Finset.card_univ, Fintype.card_fin]
        exact Nat.lt_succ_of_le (List.toFinset_card_le U))
      (fun a _ => List.mem_toFinset.mpr (g a.1).2)
  rcases Ne.lt_or_lt hne' with hij | hij
  · refine ⟨(g i.1).1, ?_⟩
    have hc := hchain i.1 j.1 hij
    rw [← heq'] at hc
    exact hc
  · refine ⟨(g j.1).1, ?_⟩
    have hc := hchain j.1 i.1 hij
    rw [heq'] at hc
    exact hc

/-- In an invariant-satisfying final state, `L` separates reachability:
everything reaching a member of `L` is earlier in `L`. -/
theorem final_topological (net : SynthNetG) (degF LF : List ℕ)
    (hinv : KInv net degF [] LF) :
    ∀ a b, Relation.TransGen net.edge a b → b ∈ LF →
      a ∈ LF ∧ LF.indexOf a < LF.indexOf b := by
  have h11 := hinv.2.2.2.2.2.2.2.2.2.2
  intro a b h
  induction h with
  | single hab => exact h11 _ _ hab
  | tail _ hbc ih =>
    intro hcL
    obtain ⟨hbL, hbc'⟩ := h11 _ _ hbc hcL
    obtain ⟨haL, hab'⟩ := ih hbL
    exact ⟨haL, lt_trans hab' hbc'⟩

/-- C3: for a valid network, `orderNodes` succeeds on an acyclic
connection graph with an ordering that contains every node exactly once
and places every node after all nodes whose outputs feed its inputs,
and on a cyclic graph it raises the configuration-error assertion and
stores no ordering. -/
theorem orderNodes_correct (net : SynthNetG) (hv : net.valid) :
    (net.hasCycle → net.orderNodes = none)
    ∧ (¬net.hasCycle →
        ∃ L, net.orderNodes = some L ∧ L.Nodup
          ∧ (∀ x, x ∈ L ↔ x < net.n)
          ∧ (∀ s d, net.edge s d → L.indexOf s < L.indexOf d)) := by
  obtain ⟨degF, LF, heqF, hinvF⟩ :=
    kahnLoop_spec net hv
      (((List.range net.n).map (fun d => net.outDsts.flatten.count d)).sum
        + (((List.range net.n).filter
            (fun i => decide (net.outDsts.flatten.count i = 0))).reverse).length)
      ((List.range net.n).map (fun d => net.outDsts.flatten.count d))
      (((List.range net.n).filter
          (fun i => decide (net.outDsts.flatten.count i = 0))).reverse)
      [] le_rfl (init_KInv net hv)
  have hOrder : net.orderNodes
      = (if degF.sum = 0 ∧ LF.length = net.n then some LF else none) := by
    unfold SynthNetG.orderNodes
    rw [heqF]
  have hinvF' := hinvF
  obtain ⟨h1F, h2F, _, h4F, _, h6F, _, _, h9F, h10F, h11F⟩ := hinvF'
  constructor
  · rintro ⟨x, hx⟩
    have htopo := final_topological net degF LF hinvF
    have hxnot : x ∉ LF := fun hmem => lt_irrefl _ (htopo x x hx hmem).2
    have hxn : x < net.n := by
      rcases Relation.TransGen.head'_iff.mp hx with ⟨y, hxy, _⟩
      exact edge_src_lt net hv hxy
    have hlenlt : LF.length < net.n := by
      have hsub : LF ⊆ (List.range net.n).erase x := by
        intro a ha
        have han : a < net.n := h6F a ha
        have hax : a ≠ x := fun hc => hxnot (hc ▸ ha)
        exact (List.mem_erase_of_ne hax).mpr (List.mem_range.mpr han)
      have hle := (List.subperm_of_subset h4F hsub).length_le
      rw [List.length_erase_of_mem (List.mem_range.mpr hxn), List.length_range] at hle
      omega
    rw [hOrder, if_neg (fun hc => absurd hc.2 (by omega))]
  · intro hnc
    have hall : ∀ x, x < net.n → x ∈ LF := by
      by_contra hcon
      push_neg at hcon
      obtain ⟨x, hxn, hxL⟩ := hcon
      have hUpred : ∀ u ∈ (List.range net.n).filter (fun u => decide (u ∉ LF)),
          ∃ p, p ∈ (List.range net.n).filter (fun u => decide (u ∉ LF))
            ∧ net.edge p u := by
        intro u hu
        have hun : u < net.n := List.mem_range.mp (List.mem_filter.mp hu).1
        have huL : u ∉ LF := by simpa using (List.mem_filter.mp hu).2
        have hdeg : degF.getD u 0 ≠ 0 := by
          intro hc
          rcases h10F u hun hc with hS | hL
          · cases hS
          · exact huL hL
        rw [h2F u] at hdeg
        unfold remDeg at hdeg
        have hex : ∃ s ∈ (List.range net.n).filter (fun s => decide (s ∉ LF)),
            (net.outDsts.getD s []).count u ≠ 0 := by
          by_contra hall0
          push_neg at hall0
          apply hdeg
          apply List.sum_eq_zero
          intro v hv'
          obtain ⟨s, hs, rfl⟩ := List.mem_map.mp hv'
          exact hall0 s hs
        obtain ⟨p, hpT, hpcnt⟩ := hex
        exact ⟨p, hpT, List.count_pos_iff.mp (by omega)⟩
      have hxU : x ∈ (List.range net.n).filter (fun u => decide (u ∉ LF)) :=
        List.mem_filter.mpr ⟨List.mem_range.mpr hxn, by simpa using hxL⟩
      have hUne : (List.range net.n).filter (fun u => decide (u ∉ LF)) ≠ [] :=
        fun hc => by rw [hc] at hxU; cases hxU
      exact hnc (cycle_of_preds net.edge _ hUne hUpred)
    have hmemiff : ∀ x, x ∈ LF ↔ x < net.n := fun x => ⟨h6F x, hall x⟩
    have hlenF : LF.length = net.n := by
      have hsub1 : LF ⊆ List.range net.n :=
        fun a ha => List.mem_range.mpr (h6F a ha)
      have hsub2 : List.range net.n ⊆ LF :=
        fun a ha => hall a (List.mem_range.mp ha)
      have hle1 := (List.subperm_of_subset h4F hsub1).length_le
      have hle2 := (List.subperm_of_subset (List.nodup_range net.n) hsub2).length_le
      rw [List.length_range] at hle1 hle2
      omega
    have hsum0 : degF.sum = 0 := by
      apply List.sum_eq_zero
      intro v hv'
      obtain ⟨i, hi, rfl⟩ := List.mem_iff_getElem.mp hv'
      have hin : i < net.n := by rw [← h1F]; exact hi
      have h0 : degF.getD i 0 = 0 := h9F i (hall i hin)
      rw [List.getD_eq_getElem _ _ hi] at h0
      exact h0
    refine ⟨LF, ?_, h4F, hmemiff, ?_⟩
    · rw [hOrder, if_pos ⟨hsum0, hlenF⟩]
    · intro s d hsd
      have hdn : d < net.n := edge_dst_lt net hv hsd
      exact (h11F s d hsd (hall d hdn)).2

/-- C3 witness: the two-node network with no connections is valid,
acyclic (its edge relation is empty), and gets an ordering. -/
theorem orderNodes_correct_witness :
    ∃ L, SynthNetG.orderNodes ⟨2, [[], []]⟩ = some L
      ∧ L.Nodup ∧ (∀ x, x ∈ L ↔ x < 2)
      ∧ (∀ s d, SynthNetG.edge ⟨2, [[], []]⟩ s d → L.indexOf s < L.indexOf d) :=
  (orderNodes_correct ⟨2, [[], []]⟩ (by decide)).2
    (by
      rintro ⟨x, hx⟩
      rcases Relation.TransGen.head'_iff.mp hx with ⟨y, hxy, _⟩
      unfold SynthNetG.edge at hxy
      rcases x with _ | _ | x <;> simp at hxy)

end MusicToy
